import Mathlib

/-!
Verification of the mapObject library (a declarative object-reshaping engine
for JSON-compatible values).  The JavaScript source consists of a path
tokenizer, a value reader (readValue), a value writer (writeValue), a mapping
resolver (resolveMap / resolveMapArray) and the orchestrator (mapObject).
This file gives a shallow embedding of those functions over an inductive type
of JSON-compatible JavaScript values and proves or refutes the specification
claims about them.

Modelling conventions:
* JavaScript values are modelled by the inductive type JSValue; `undefined`
  and `null` are distinct constructors.  Numbers are modelled as integers
  (all values appearing in the claims are integral; no floating point claim
  is made).
* Thrown exceptions are modelled with Except JSErr.  The source throws
  plain Error objects for path/map validation and runs into TypeError for
  operations such as calling .at/.push on values that lack them; the two
  are kept apart by distinct JSErr constructors.
* Functions whose JavaScript recursion is not structural (the reader and the
  writer re-enter themselves on bracket sub-paths, broadcast writes re-enter
  the writer on array elements, the resolver re-enters itself on split
  groups) are written with an explicit fuel parameter that is decremented at
  exactly those re-entry points.  The public wrappers supply a fuel bound
  that dominates the re-entry depth (reader: paths strictly shrink, so
  length + 1; writer: every re-entry shrinks the path or moves to a strict
  subvalue, so length + size + 2; resolver: comma/double-colon splitting
  strictly consumes separators, so the weighted size bound specsFuel).
  Fuel exhaustion is a distinguished error that the theorems below prove
  unreachable where it matters.
* Mutation is made explicit: the writer returns the updated root, and the
  orchestrator threads a state record whose source component is the caller
  value, mirroring the fact that the source never flows into any write.
-/

namespace MapObject

/-- Errors thrown by the engine.  invalidPath and invalidMap model the plain
Error objects thrown by the validation checks; typeError models the runtime
TypeError raised by invoking array methods (.at / .push / .splice / .forEach)
on a value that does not have them, or reading a property of
undefined / null; fuelExhausted is the artefact of the fuel encoding and is
unreachable for the canonical fuel supplied by the wrappers. -/
inductive JSErr where
  | invalidPath
  | invalidMap
  | typeError
  | syntaxError
  | fuelExhausted
deriving Repr, DecidableEq

/-- JSON-compatible JavaScript values, plus undefined.  Objects are ordered
association lists (JavaScript objects preserve insertion order; the integer
re-ordering of numeric keys never matters for the values produced here).
Array holes produced by sparse assignment are represented by undef; the only
observable difference (forEach skipping holes) is outside every theorem in
this file. -/
inductive JSValue where
  | undef
  | null
  | bool (b : Bool)
  | num (n : Int)
  | str (s : String)
  | arr (elems : List JSValue)
  | obj (fields : List (String × JSValue))
deriving Repr

/-- isUndefined from the source: val === undefined. -/
def isUndefined : JSValue → Bool
  | .undef => true
  | _ => false

/-- isNull from the source: val === null. -/
def isNull : JSValue → Bool
  | .null => true
  | _ => false

/-- isObject from the source: typeof val === "object" && !Array.isArray(val)
&& val !== null, i.e. exactly the plain objects of this value model. -/
def isObject : JSValue → Bool
  | .obj _ => true
  | _ => false

/-- Array.isArray. -/
def isArray : JSValue → Bool
  | .arr _ => true
  | _ => false

/-- Member of the character class [$\w-] used by every path pattern of the
source ($, ASCII letters, digits, underscore, hyphen). -/
def isWordChar (c : Char) : Bool :=
  c = '$' || c = '_' || c = '-' || c.isAlpha || c.isDigit

/-- isIndexKey from the source: the full-string pattern -?\d+. -/
def isIndexKey : List Char → Bool
  | '-' :: ds => !ds.isEmpty && ds.all Char.isDigit
  | ds => !ds.isEmpty && ds.all Char.isDigit

/-- isArrayKey from the source: the full-string pattern \[[^\[\]]*\]
(an opening bracket, any run of non-bracket characters, a closing bracket). -/
def isArrayKey (cs : List Char) : Bool :=
  match cs with
  | '[' :: rest =>
    match rest.reverse with
    | ']' :: mid => (mid.all fun c => c ≠ '[' && c ≠ ']')
    | _ => false
  | _ => false

/-- key.replace(/(^\[)|(\]$)/g, ""): drop one leading opening bracket and one
trailing closing bracket, each independently and only if present. -/
def stripBrackets (cs : List Char) : List Char :=
  let a := if cs.head? = some '[' then cs.tail else cs
  if a.getLast? = some ']' then a.dropLast else a

/-- Numeric coercion applied by .at / .splice to an index string matching
-?\d+ (Number() on such a string; leading zeros and -0 are legal and collapse
in the result). -/
def parseIndex : List Char → Int
  | '-' :: ds => - (ds.foldl (fun a c => 10 * a + (c.toNat - 48)) 0 : Nat)
  | ds => (ds.foldl (fun a c => 10 * a + (c.toNat - 48)) 0 : Nat)

/-- End-relative index resolution of .at: negative indices count from the
end. -/
def resolveIdx (len : Nat) (i : Int) : Int :=
  if i < 0 then (len : Int) + i else i

/-- The in-range position .at(i) reads from, if any. -/
def posOf (len : Nat) (i : Int) : Option Nat :=
  if 0 ≤ resolveIdx len i ∧ resolveIdx len i < (len : Int) then
    some (resolveIdx len i).toNat
  else none

/-- Array.prototype.at with an integer argument: negative indices count from
the end, out-of-range yields undefined. -/
def jsAt (xs : List JSValue) (i : Int) : JSValue :=
  match posOf xs.length i with
  | some p => xs.getD p .undef
  | none => (.undef)

/-- Property read on a plain object: first binding wins (keys are unique in
JavaScript objects; writes below keep them unique). -/
def objGet (fields : List (String × JSValue)) (k : String) : JSValue :=
  match fields.find? (fun p => p.1 = k) with
  | some p => p.2
  | none => (.undef)

/-- Property write on a plain object: update the first binding in place, or
append a new one (JavaScript assignment order semantics). -/
def objSet (fields : List (String × JSValue)) (k : String) (v : JSValue) :
    List (String × JSValue) :=
  match fields with
  | [] => [(k, v)]
  | (k0, v0) :: rest =>
    if k0 = k then (k0, v) :: rest else (k0, v0) :: objSet rest k v

/-- Maximal prefix of word-class characters and the remaining suffix
(the greedy behaviour of a [$\w-]+ run). -/
def takeWordRun : List Char → List Char × List Char
  | [] => ([], [])
  | c :: r =>
    if isWordChar c then
      let p := takeWordRun r
      (c :: p.1, p.2)
    else ([], c :: r)

mutual

/-- Bracket-content parser, state needing at least one more word character:
recognises [$\w-]+(\.[$\w-]+)* followed by the first closing bracket, and
returns (content, suffix after the closing bracket).  Backtracking cannot
produce any other parse because word characters, the dot and the closing
bracket are disjoint. -/
def brWord : List Char → Option (List Char × List Char)
  | [] => none
  | c :: rest =>
    if isWordChar c then
      match brRun rest with
      | some (t, r) => some (c :: t, r)
      | none => none
    else none

/-- Bracket-content parser, state inside a word run: continue the run, close
on a closing bracket, or start a new run after a dot. -/
def brRun : List Char → Option (List Char × List Char)
  | [] => none
  | c :: rest =>
    if isWordChar c then
      match brRun rest with
      | some (t, r) => some (c :: t, r)
      | none => none
    else if c = ']' then some ([], rest)
    else if c = '.' then
      match brWord rest with
      | some (t, r) => some ('.' :: t, r)
      | none => none
    else none

end

/-- Lookahead (?=\.|$): end of input or a dot next. -/
def lookDotEnd : List Char → Bool
  | [] => true
  | c :: _ => c = '.'

/-- One attempted match of the read-side segment pattern
\*|(?<=\.|^)((\[[$\w\-]+(\.[$\w\-]+)*\])|[$\w\-]+)(?=\.|$)
at the current position.  prevOk records the lookbehind (?<=\.|^): the
position is the start of the string or is preceded by a dot.  The \* branch
has no lookarounds.  Returns the matched token and the rest of the input. -/
def readTryToken (prevOk : Bool) (cs : List Char) :
    Option (List Char × List Char) :=
  match cs with
  | [] => none
  | c :: rest =>
    if c = '*' then some (['*'], rest)
    else if prevOk && c = '[' then
      match brWord rest with
      | some (content, rest') =>
        if lookDotEnd rest' then some ('[' :: content ++ [']'], rest') else none
      | none => none
    else if prevOk && isWordChar c then
      let p := takeWordRun (c :: rest)
      if lookDotEnd p.2 then some (p.1, p.2) else none
    else none

/-- The global scan path.match(...read pattern...): at every position try a
match; on success emit the token and continue after it, otherwise advance one
character.  Every token ends in a word character, a closing bracket or the
star, never in a dot, so the lookbehind state after a token is false.  Fuel
is the remaining input length (each step consumes at least one character). -/
def readScanF : Nat → Bool → List Char → List (List Char)
  | 0, _, _ => []
  | _ + 1, _, [] => []
  | n + 1, prevOk, c :: rest =>
    match readTryToken prevOk (c :: rest) with
    | some (tok, rest') => tok :: readScanF n false rest'
    | none => readScanF n (c = '.') rest

/-- Read-side tokenizer. -/
def readScan (cs : List Char) : List (List Char) :=
  readScanF cs.length true cs

/-- One attempted match of the write-side segment pattern
(?<=\.|^)(\[([$\w\-]+(\.[$\w\-]+)*)*\])|[$\w\-]+(?=\.|$)
at the current position.  The alternation is top level: the lookbehind
belongs only to the bracket branch (whose content may be empty and which has
no lookahead) and the lookahead belongs only to the word-run branch (which
has no lookbehind).  There is no star token. -/
def writeTryToken (prevOk : Bool) (cs : List Char) :
    Option (List Char × List Char) :=
  match cs with
  | [] => none
  | c :: rest =>
    if prevOk && c = '[' then
      match rest with
      | ']' :: rest' => some (['[', ']'], rest')
      | _ =>
        match brWord rest with
        | some (content, rest') => some ('[' :: content ++ [']'], rest')
        | none => none
    else
      if isWordChar c then
        let p := takeWordRun (c :: rest)
        if lookDotEnd p.2 then some (p.1, p.2) else none
      else none

/-- The global scan path.match(...write pattern...). -/
def writeScanF : Nat → Bool → List Char → List (List Char)
  | 0, _, _ => []
  | _ + 1, _, [] => []
  | n + 1, prevOk, c :: rest =>
    match writeTryToken prevOk (c :: rest) with
    | some (tok, rest') => tok :: writeScanF n false rest'
    | none => writeScanF n (c = '.') rest

/-- Write-side tokenizer. -/
def writeScan (cs : List Char) : List (List Char) :=
  writeScanF cs.length true cs

/-- The fold body of readValue over the matched segments.  recur models the
recursive readValue(item, cleanKey) call for bracketed property paths; it is
instantiated with the reader at one fuel level down.  The empty-segment guard
of the source is kept although the tokenizer never emits an empty token. -/
def readGo (recur : JSValue → List Char → Except JSErr JSValue) :
    JSValue → List (List Char) → Except JSErr JSValue
  | cur, [] => .ok cur
  | cur, seg :: rest =>
    if seg.isEmpty then .error .invalidPath
    else if seg = ['*'] then readGo recur cur rest
    else if isArrayKey seg || isIndexKey seg then
      let clean := stripBrackets seg
      match cur with
      | .arr xs =>
        if clean.isEmpty then readGo recur .undef rest
        else if isIndexKey clean then
          readGo recur (jsAt xs (parseIndex clean)) rest
        else do
          let vs ← xs.mapM fun item =>
            if isObject item then recur item clean else .ok .undef
          readGo recur (.arr vs) rest
      | _ => readGo recur .undef rest
    else
      readGo recur
        (match cur with
         | .obj fs => objGet fs (String.mk seg)
         | _ => .undef) rest

/-- readValue with fuel.  Fuel is spent only on the re-entrant bracket calls,
whose sub-path is at least two characters shorter than the current path, so
any fuel above the path length is enough (proved where needed below). -/
def readValF : Nat → JSValue → List Char → Except JSErr JSValue
  | 0, _, _ => .error .fuelExhausted
  | n + 1, root, cs =>
    if cs.isEmpty then .error .invalidPath
    else
      match readScan cs with
      | [] => .ok .undef
      | seg :: segs => readGo (readValF n) root (seg :: segs)

/-- readValue on a path given as a character list (the canonical fuel
path.length + 1 dominates the bracket recursion depth). -/
def readValueC (root : JSValue) (cs : List Char) : Except JSErr JSValue :=
  readValF (cs.length + 1) root cs

/-- readValue(obj, path) of the source.  The typeof check on path is
discharged by typing; the empty-string check and everything after it is
modelled faithfully. -/
def readValue (root : JSValue) (path : String) : Except JSErr JSValue :=
  readValueC root path.toList

/-- String.prototype.at: the single character at an end-relative index, as a
one-character string, or undefined when out of range. -/
def strAt (s : String) (i : Int) : JSValue :=
  match posOf s.toList.length i with
  | some p =>
    match s.toList.get? p with
    | some c => .str (String.mk [c])
    | none => .undef
  | none => (.undef)

/-- currentObj[key] as a plain property read.  Reading a property of
undefined or null throws a TypeError; objects look the key up; a string
exposes its length (its method-valued properties are functions, which lie
outside the JSON value domain and are not relied on by any theorem here);
arrays expose length too (the only array property read in the source is
discarded unread); the remaining primitives yield undefined. -/
def jsGetProp : JSValue → String → Except JSErr JSValue
  | .undef, _ => .error .typeError
  | .null, _ => .error .typeError
  | .obj fs, k => .ok (objGet fs k)
  | .str s, k => .ok (if k = "length" then .num s.length else .undef)
  | .arr xs, k => .ok (if k = "length" then .num xs.length else .undef)
  | _, _ => .ok (.undef)

/-- currentObj[key] = v as a plain property write.  Objects are updated;
assignment to a property of a primitive is a silent no-op in sloppy mode
(the temporary wrapper object is discarded); undefined/null never reach this
point because the preceding property read already threw. -/
def jsSetProp (cur : JSValue) (k : String) (v : JSValue) : JSValue :=
  match cur with
  | .obj fs => .obj (objSet fs k v)
  | other => other

/-- Array.prototype.splice(start, 1, v): clamp the possibly negative start,
delete at most one element there, insert v. -/
def splice1 (xs : List JSValue) (i : Int) (v : JSValue) : List JSValue :=
  let start := if i < 0 then (max ((xs.length : Int) + i) 0).toNat
               else min i.toNat xs.length
  xs.take start ++ [v] ++ xs.drop (start + 1)

/-- Non-negative digit string that is a canonical array index (no leading
zero except the string "0" itself).  A non-canonical digit string such as
"007" names an ordinary own property of the array object in JavaScript,
invisible to .at, to iteration and to JSON, hence to every read path of this
library. -/
def isCanonicalIndex (cs : List Char) : Bool :=
  cs = ['0'] || cs.head? ≠ some '0'

/-- currentObj[cleanKey] = v for a non-negative digit-string key on an array:
a canonical index assigns (extending the array with holes when past the
end); a non-canonical one creates only an unobservable non-index own
property, modelled as a no-op. -/
def arrSetNonNeg (xs : List JSValue) (clean : List Char) (v : JSValue) :
    List JSValue :=
  if isCanonicalIndex clean then
    let n := (parseIndex clean).toNat
    if n < xs.length then xs.set n v
    else xs ++ List.replicate (n - xs.length) .undef ++ [v]
  else xs

/-- value ?? undefined: null collapses to undefined. -/
def valueOrUndef : JSValue → JSValue
  | .null => .undef
  | .undef => .undef
  | v => v

/-- getNextValue of the source: at the last segment the written value (with
value ?? undefined); otherwise the existing value when it already has the
shape required by the next segment, else a fresh empty container of that
shape. -/
def getNextValue (value : JSValue) (isLast nextArrayLike : Bool)
    (existing : JSValue) : JSValue :=
  if isLast then valueOrUndef value
  else if nextArrayLike then (if isArray existing then existing else .arr [])
  else (if isObject existing then existing else .obj [])

/-- The fold body of writeValue over the matched segments, returning the
updated current value (mutation made explicit).  recur models the re-entrant
writeValue(item, path, v) calls of the broadcast branches and is
instantiated with the writer one fuel level down.  Descending into a child
is modelled by recursing on the remaining segments and re-inserting the
result where the child mutation would have been visible; descents into
primitives discard the recursive result exactly as primitive mutation is
lost in JavaScript. -/
def writeGo (recur : JSValue → List Char → JSValue → Except JSErr JSValue)
    (value : JSValue) : JSValue → List (List Char) → Except JSErr JSValue
  | cur, [] => .ok cur
  | cur, seg :: rest =>
    let isLast := rest.isEmpty
    let nextArrayLike :=
      match rest with
      | [] => false
      | nk :: _ => isArrayKey nk || isIndexKey nk
    let getNext := getNextValue value isLast nextArrayLike
    if isArrayKey seg || isIndexKey seg then
      let clean := stripBrackets seg
      if clean.isEmpty then
        -- empty brackets: currentObj.push(getNextValue()); descend into the
        -- appended element
        match cur with
        | .arr xs =>
          let ne := getNext .undef
          if rest.isEmpty then .ok (.arr (xs ++ [ne]))
          else do
            let upd ← writeGo recur value ne rest
            .ok (.arr (xs ++ [upd]))
        | _ => .error .typeError
      else if isIndexKey clean then
        match cur with
        | .arr xs =>
          let n := parseIndex clean
          let existing := jsAt xs n
          let shouldUpdate :=
            !(if nextArrayLike then isArray existing else isObject existing)
          let xs' :=
            if shouldUpdate then
              if clean.head? = some '-' then splice1 xs n (getNext existing)
              else arrSetNonNeg xs clean (getNext existing)
            else xs
          if rest.isEmpty then .ok (.arr xs')
          else
            match posOf xs'.length n with
            | some p => do
              let upd ← writeGo recur value (xs'.getD p .undef) rest
              .ok (.arr (xs'.set p upd))
            | none => do
              -- descending into an absent element: the fold continues on
              -- undefined and the next step throws; nothing to re-insert
              let _ ← writeGo recur value .undef rest
              .ok (.arr xs')
        | .str s =>
          -- strings do have .at; the shape check is never satisfied by a
          -- character, a negative index reaches the missing .splice, a
          -- non-negative assignment is a silent no-op on the primitive
          let existing := strAt s (parseIndex clean)
          if clean.head? = some '-' then .error .typeError
          else if rest.isEmpty then .ok (.str s)
          else do
            let _ ← writeGo recur value existing rest
            .ok (.str s)
        | _ => .error .typeError
      else
        -- bracketed property path: broadcast writeValue(item, cleanKey,
        -- getNextValue()) over the elements, then continue the fold on the
        -- array itself
        match cur with
        | .arr xs => do
          let xs' ← xs.mapM fun item => recur item clean (getNext .undef)
          if rest.isEmpty then .ok (.arr xs')
          else writeGo recur value (.arr xs') rest
        | _ => .error .typeError
    else
      match jsGetProp cur (String.mk seg) with
      | .error e => .error e
      | .ok existing =>
        match cur with
        | .arr xs => do
          -- plain key on an array: broadcast writeValue(item, key,
          -- getNextValue()) and continue the fold on the array
          let xs' ← xs.mapM fun item => recur item seg (getNext .undef)
          if rest.isEmpty then .ok (.arr xs')
          else writeGo recur value (.arr xs') rest
        | _ =>
          let shouldUpdate :=
            !(if nextArrayLike then isArray existing else isObject existing)
          if shouldUpdate then
            let nv := getNext existing
            let cur' := jsSetProp cur (String.mk seg) nv
            let descend := if isObject cur then nv else existing
            if rest.isEmpty then .ok cur'
            else do
              let upd ← writeGo recur value descend rest
              .ok (jsSetProp cur' (String.mk seg) upd)
          else if rest.isEmpty then .ok (jsSetProp cur (String.mk seg) value)
          else do
            let upd ← writeGo recur value existing rest
            .ok (jsSetProp cur (String.mk seg) upd)

mutual

/-- Weighted size of a value (for the writer fuel bound). -/
def szV : JSValue → Nat
  | .arr xs => 1 + szL xs
  | .obj fs => 1 + szF fs
  | _ => 1

/-- Weighted size of an element list. -/
def szL : List JSValue → Nat
  | [] => 0
  | x :: r => 1 + szV x + szL r

/-- Weighted size of a field list. -/
def szF : List (String × JSValue) → Nat
  | [] => 0
  | p :: r => 1 + szV p.2 + szF r

end

/-- writeValue with fuel.  Fuel is spent only on the re-entrant broadcast
calls, each of which either strictly shortens the path (bracket sub-paths)
or moves to a strict subvalue on a path no longer than the current one, so
any fuel above path length + value size is enough. -/
def writeValF : Nat → JSValue → List Char → JSValue → Except JSErr JSValue
  | 0, _, _, _ => .error .fuelExhausted
  | n + 1, root, cs, value =>
    -- skip when writing undefined over an already absent path; note that
    -- readValue itself throws on the empty path
    if isUndefined value then
      match readValueC root cs with
      | .error e => .error e
      | .ok r =>
        if isUndefined r then .ok root
        else
          match writeScan cs with
          | [] => .ok root
          | seg :: segs => writeGo (writeValF n) value root (seg :: segs)
    else
      match writeScan cs with
      | [] => .ok root
      | seg :: segs => writeGo (writeValF n) value root (seg :: segs)

/-- writeValue on a path given as a character list, with the canonical fuel
bound. -/
def writeValueC (root : JSValue) (cs : List Char) (value : JSValue) :
    Except JSErr JSValue :=
  writeValF (cs.length + szV root + 2) root cs value

/-- writeValue(obj, path, value) of the source: mutates and returns the
root, modelled as returning the updated root. -/
def writeValue (root : JSValue) (path : String) (value : JSValue) :
    Except JSErr JSValue :=
  writeValueC root path.toList value

/-- String.prototype.split with a single-character separator: always at
least one (possibly empty) part. -/
def splitOnChar (sep : Char) : List Char → List (List Char)
  | [] => [[]]
  | c :: r =>
    match splitOnChar sep r with
    | [] => [[c]]
    | p :: ps => if c = sep then [] :: p :: ps else (c :: p) :: ps

/-- split(/::|,/): scan left to right, cutting at every double colon or
comma. -/
def splitSep : List Char → List (List Char)
  | [] => [[]]
  | ':' :: ':' :: r => [] :: splitSep r
  | ',' :: r => [] :: splitSep r
  | c :: r =>
    match splitSep r with
    | [] => [[c]]
    | p :: ps => (c :: p) :: ps

/-- /::|,/.test: the string contains a double colon or a comma. -/
def hasSep : List Char → Bool
  | [] => false
  | ':' :: ':' :: _ => true
  | ',' :: _ => true
  | _ :: r => hasSep r

/-- A field specification handed to the resolver: a map string or a nested
sequence of field specifications.  Items of any other type are silently
skipped by the source loop and therefore omitted from the model. -/
inductive MapSpec where
  | str (s : String)
  | group (specs : List MapSpec)

/-- toMapArray of the source: split a string on the multi-field separators,
pass a sequence through unchanged. -/
def toMapArray : MapSpec → List MapSpec
  | .str s => (splitSep s.toList).map fun p => MapSpec.str (String.mk p)
  | .group l => l

/-- A dotted path of non-empty word-character runs:
[$\w-]+(\.[$\w-]+)*  as a full-string match. -/
def isPathSeq (cs : List Char) : Bool :=
  (splitOnChar '.' cs).all fun p => !p.isEmpty && p.all isWordChar

/-- The string ends with a dot. -/
def endsWithDot (cs : List Char) : Bool :=
  cs.getLast? = some '.'

/-- isMapper of the source: the full-string pattern
(^[$\w-]+(\.[$\w-]+)*(:[$\w-]+(\.[$\w-]+)*)?\.$)|(^:[$\w-]+(\.[$\w-]+)*\.?$),
i.e. a dotted read path with optional colon-separated write path and a
mandatory trailing dot, or a leading colon, a dotted write path and an
optional trailing dot. -/
def isMapper (cs : List Char) : Bool :=
  (endsWithDot cs &&
    (match splitOnChar ':' cs.dropLast with
     | [p] => isPathSeq p
     | [p, q] => isPathSeq p && isPathSeq q
     | _ => false)) ||
  (match cs with
   | ':' :: rest =>
     isPathSeq (if endsWithDot rest then rest.dropLast else rest)
   | _ => false)

/-- split(/:|\.$/): cut at every colon and additionally at a trailing dot
(which always lies inside the last colon-part). -/
def splitMapper (cs : List Char) : List (List Char) :=
  let ps := splitOnChar ':' cs
  if endsWithDot cs then
    match ps.reverse with
    | lastp :: revRest => revRest.reverse ++ [lastp.dropLast, []]
    | [] => ps
  else ps

/-- A resolved (identifier, value) pair: the write path into the result and
the value read from the source. -/
structure ResolvedPair where
  identifier : String
  value : JSValue
deriving Repr

/-- resolveMap of the source: split the map string on the first colon into
source path and optional target path, read the source path, and use the
target path as identifier when it is a non-empty string, else the source
path.  The typeof check on the map string is discharged by typing. -/
def resolveMap (obj : JSValue) (map : String) : Except JSErr ResolvedPair := do
  let parts := splitOnChar ':' map.toList
  let sourcePath := parts.headD []
  let value ← readValueC obj sourcePath
  let identifier :=
    match parts.get? 1 with
    | some t => if t.isEmpty then sourcePath else t
    | none => sourcePath
  .ok ⟨String.mk identifier, value⟩

/-- The loop body of resolveMapArray over the (mapper-stripped) working
array: multi-field strings are split and recursively resolved, plain
strings resolved as simple maps, nested sequences recursively resolved;
every produced identifier receives the group identifier-prefix in front.
recur models the re-entrant resolveMapArray calls and is instantiated with
the resolver one fuel level down. -/
def resolveLoop
    (recur : JSValue → List MapSpec → Except JSErr (List ResolvedPair))
    (sourceObj : JSValue) (idPre : String) :
    List MapSpec → Except JSErr (List ResolvedPair)
  | [] => .ok []
  | item :: rest => do
    let here ←
      match item with
      | .str s =>
        if hasSep s.toList then do
          let nested ← recur sourceObj
            ((splitSep s.toList).map fun p => MapSpec.str (String.mk p))
          pure (nested.map fun pr =>
            ResolvedPair.mk (idPre ++ pr.identifier) pr.value)
        else do
          let r ← resolveMap sourceObj s
          pure [ResolvedPair.mk (idPre ++ r.identifier) r.value]
      | .group l => do
        let nested ← recur sourceObj l
        pure (nested.map fun pr =>
          ResolvedPair.mk (idPre ++ pr.identifier) pr.value)
    let more ← resolveLoop recur sourceObj idPre rest
    .ok (here ++ more)

/-- resolveMapArray with fuel.  A leading mapper directive re-points the
read source and/or installs the identifier prefix for the rest of the
group; a group whose (possibly redirected) source is undefined or null
yields no pairs.  The Array.isArray check on the argument is discharged by
typing. -/
def resolveMapArrayF :
    Nat → JSValue → List MapSpec → Except JSErr (List ResolvedPair)
  | 0, _, _ => .error .fuelExhausted
  | n + 1, obj, mapArray =>
    match mapArray with
    | .str s :: rest =>
      if isMapper s.toList then do
        let parts := splitMapper s.toList
        let readPath := parts.headD []
        let writePath := (parts.get? 1).getD []
        -- readPath || (firstElement.endsWith(".") && writePath) || ""
        let normalized :=
          if !readPath.isEmpty then readPath
          else if endsWithDot s.toList && !writePath.isEmpty then writePath
          else []
        let idPre :=
          if writePath.isEmpty then "" else String.mk writePath ++ "."
        let src ← if normalized.isEmpty then pure obj
                  else readValueC obj normalized
        if isUndefined src || isNull src then .ok []
        else resolveLoop (resolveMapArrayF n) src idPre rest
      else
        if isUndefined obj || isNull obj then .ok []
        else resolveLoop (resolveMapArrayF n) obj "" mapArray
    | _ =>
      if isUndefined obj || isNull obj then .ok []
      else resolveLoop (resolveMapArrayF n) obj "" mapArray

mutual

/-- Weighted size of a field specification, dominating the resolver
re-entry depth: splitting a separator-carrying string of length L yields
parts of weight at most 2L, and entering a nested group sheds the group
wrapper. -/
def specFuelOne : MapSpec → Nat
  | .str s => 2 * s.length + 1
  | .group l => specFuelList l + 2

/-- Weighted size of a field-specification list. -/
def specFuelList : List MapSpec → Nat
  | [] => 0
  | x :: r => specFuelOne x + specFuelList r

end

/-- resolveMapArray with its canonical fuel. -/
def resolveMapArray (obj : JSValue) (mapArray : List MapSpec) :
    Except JSErr (List ResolvedPair) :=
  resolveMapArrayF (specFuelList mapArray + 1) obj mapArray

mutual

/-- JSON.parse(JSON.stringify(v)) on a defined value: undefined array
elements become null, undefined-valued object properties are dropped.
(The undef case is reachable only for array elements; the orchestrator
guards the top level.) -/
def cloneV : JSValue → JSValue
  | .undef => .null
  | .arr xs => .arr (cloneL xs)
  | .obj fs => .obj (cloneF fs)
  | v => v

/-- Clone of an element list. -/
def cloneL : List JSValue → List JSValue
  | [] => []
  | x :: r => cloneV x :: cloneL r

/-- Clone of a field list, dropping undefined-valued properties. -/
def cloneF : List (String × JSValue) → List (String × JSValue)
  | [] => []
  | (k, v) :: r =>
    match v with
    | .undef => cloneF r
    | v => (k, cloneV v) :: cloneF r

end

/-- Write one resolved pair into the result container: the wildcard
identifier appends array elements onto an array result, shallow-merges an
object value into an object result, and otherwise replaces the result
wholesale; any other identifier goes through writeValue. -/
def applyPair (result : JSValue) (pr : ResolvedPair) : Except JSErr JSValue :=
  if pr.identifier = "*" then
    match result, pr.value with
    | .arr rs, .arr vs => .ok (.arr (rs ++ vs))
    | .obj rf, .obj vf =>
      .ok (.obj (vf.foldl (fun acc p => objSet acc p.1 p.2) rf))
    | _, v => .ok v
  else
    writeValueC result pr.identifier.toList pr.value

/-- processMap of the source: expand one field specification, resolve it
against the cloned source, and write every resolved pair into the result in
order.  (toMapArray always yields a sequence here, so the non-sequence
early return of the source is unreachable.) -/
def processMap (cloned : JSValue) (result : JSValue) (spec : MapSpec) :
    Except JSErr JSValue := do
  let resolved ← resolveMapArray cloned (toMapArray spec)
  resolved.foldlM applyPair result

/-- The state of one mapObject invocation: the caller value, its deep
clone (the only value ever read from), and the result container under
construction (the only value ever written to). -/
structure MapState where
  source : JSValue
  cloned : JSValue
  result : JSValue

/-- mapObject of the source, with the mutation boundary made explicit: the
result container starts as an empty array or object matching the source
shape, the source is deep-cloned once (a rich-document toPlainValue
conversion hook is treated as the identity on these plain values;
JSON.parse of the undefined stringify result raises a SyntaxError), every
field specification is processed in order against the clone, and the final
state carries the untouched caller value alongside the built result. -/
def mapObjectRun (src : JSValue) (fields : List MapSpec) :
    Except JSErr MapState := do
  if isUndefined src then .error .syntaxError
  else
    let cloned := cloneV src
    let init : JSValue := if isArray src then .arr [] else .obj []
    let result ← fields.foldlM (fun res spec => processMap cloned res spec) init
    .ok ⟨src, cloned, result⟩

/-- mapObject(obj, ...fields) of the source. -/
def mapObject (src : JSValue) (fields : List MapSpec) :
    Except JSErr JSValue :=
  (mapObjectRun src fields).map MapState.result

/-- The value is a string. -/
def isString : JSValue → Bool
  | .str _ => true
  | _ => false

/-- The decimal digit character for d < 10. -/
def digitChar : Nat → Char
  | 0 => '0'
  | 1 => '1'
  | 2 => '2'
  | 3 => '3'
  | 4 => '4'
  | 5 => '5'
  | 6 => '6'
  | 7 => '7'
  | 8 => '8'
  | _ => '9'

/-- Decimal rendering of a natural number, digit by digit (the fuel is the
number itself, which always suffices since n / 10 < n for positive n). -/
def natCharsAux : Nat → Nat → List Char
  | 0, _ => []
  | _ + 1, 0 => []
  | f + 1, n => natCharsAux f (n / 10) ++ [digitChar (n % 10)]

/-- String(n) for a natural number: canonical decimal, no leading zeros. -/
def natChars (n : Nat) : List Char :=
  if n = 0 then ['0'] else natCharsAux n n

/-- A path segment of the round-trip claims: a plain key or a non-negative
canonical decimal index. -/
inductive PathSeg where
  | key (k : List Char)
  | idx (n : Nat)

/-- The characters of one rendered segment. -/
def segChars : PathSeg → List Char
  | .key k => k
  | .idx n => natChars n

/-- A dot-joined path over segments. -/
def renderPath : List PathSeg → List Char
  | [] => []
  | [s] => segChars s
  | s :: rest => segChars s ++ '.' :: renderPath rest

/-- Validity of one segment: a key is a non-empty word-character run that
the grammar does not read as an index; an index is any natural number. -/
def validSeg : PathSeg → Prop
  | .key k => k ≠ [] ∧ k.all isWordChar = true ∧ isIndexKey k = false
  | .idx _ => True

/-- The segment is a plain key. -/
def isKeySeg : PathSeg → Prop
  | .key _ => True
  | .idx _ => False

/-- The value writeValue materialises under a fresh root along a segment
path, with the stored value at the leaf: each key segment contributes a
one-field object, each index segment an array padded with holes up to the
index. -/
def buildJS (stored : JSValue) : List PathSeg → JSValue
  | [] => stored
  | .key k :: rest => .obj [(String.mk k, buildJS stored rest)]
  | .idx n :: rest => .arr (List.replicate n .undef ++ [buildJS stored rest])

/-- The empty container the writer creates for a coming segment. -/
def freshFor : PathSeg → JSValue
  | .key _ => .obj []
  | .idx _ => .arr []

/-! ### Character-class and token-shape lemmas -/

theorem isWordChar_of_digit {c : Char} (h : c.isDigit = true) :
    isWordChar c = true := by
  simp [isWordChar, h]

theorem ne_lbracket_of_word {c : Char} (h : isWordChar c = true) : c ≠ '[' := by
  intro hc; subst hc; simp [isWordChar, Char.isAlpha, Char.isUpper,
    Char.isLower, Char.isDigit] at h

theorem ne_rbracket_of_word {c : Char} (h : isWordChar c = true) : c ≠ ']' := by
  intro hc; subst hc; simp [isWordChar, Char.isAlpha, Char.isUpper,
    Char.isLower, Char.isDigit] at h

theorem ne_star_of_word {c : Char} (h : isWordChar c = true) : c ≠ '*' := by
  intro hc; subst hc; simp [isWordChar, Char.isAlpha, Char.isUpper,
    Char.isLower, Char.isDigit] at h

theorem ne_dot_of_word {c : Char} (h : isWordChar c = true) : c ≠ '.' := by
  intro hc; subst hc; simp [isWordChar, Char.isAlpha, Char.isUpper,
    Char.isLower, Char.isDigit] at h

theorem ne_dash_of_digit {c : Char} (h : c.isDigit = true) : c ≠ '-' := by
  intro hc; subst hc; simp [Char.isDigit] at h

theorem takeWordRun_append {w rest : List Char} (hw : w.all isWordChar = true)
    (hr : ∀ c, rest.head? = some c → isWordChar c = false) :
    takeWordRun (w ++ rest) = (w, rest) := by
  induction w with
  | nil =>
    simp only [List.nil_append]
    cases rest with
    | nil => rfl
    | cons c r =>
      have := hr c rfl
      simp [takeWordRun, this]
  | cons c w ih =>
    simp only [List.all_cons, Bool.and_eq_true] at hw
    simp [takeWordRun, hw.1, ih hw.2]

theorem brWord_struct :
    ∀ cs : List Char,
      (∀ t r, brWord cs = some (t, r) → cs = t ++ ']' :: r ∧ t ≠ [] ∧
        t.all (fun c => isWordChar c || c = '.') = true) ∧
      (∀ t r, brRun cs = some (t, r) → cs = t ++ ']' :: r ∧
        t.all (fun c => isWordChar c || c = '.') = true) := by
  intro cs
  induction cs with
  | nil => constructor <;> intro t r h <;> simp [brWord, brRun] at h
  | cons c rest ih =>
    constructor
    · intro t r h
      simp only [brWord] at h
      by_cases hc : isWordChar c = true
      · simp only [hc, if_pos] at h
        cases hrun : brRun rest with
        | none => rw [hrun] at h; exact absurd h (by simp)
        | some p =>
          obtain ⟨t0, r0⟩ := p
          rw [hrun] at h
          simp only [Option.some.injEq, Prod.mk.injEq] at h
          obtain ⟨ht, hr⟩ := h
          obtain ⟨hs, hall⟩ := ih.2 t0 r0 hrun
          subst ht; subst hr; subst hs
          refine ⟨rfl, by simp, ?_⟩
          simp [hc, hall]
      · rw [if_neg hc] at h; exact absurd h (by simp)
    · intro t r h
      simp only [brRun] at h
      by_cases hc : isWordChar c = true
      · simp only [hc, if_pos] at h
        cases hrun : brRun rest with
        | none => rw [hrun] at h; exact absurd h (by simp)
        | some p =>
          obtain ⟨t0, r0⟩ := p
          rw [hrun] at h
          simp only [Option.some.injEq, Prod.mk.injEq] at h
          obtain ⟨ht, hr⟩ := h
          obtain ⟨hs, hall⟩ := ih.2 t0 r0 hrun
          subst ht; subst hr; subst hs
          exact ⟨rfl, by simp [hc, hall]⟩
      · rw [if_neg hc] at h
        by_cases hb : c = ']'
        · subst hb
          rw [if_pos rfl] at h
          simp only [Option.some.injEq, Prod.mk.injEq] at h
          obtain ⟨ht, hr⟩ := h
          subst ht; subst hr
          exact ⟨rfl, rfl⟩
        · rw [if_neg hb] at h
          by_cases hd : c = '.'
          · subst hd
            rw [if_pos rfl] at h
            cases hw : brWord rest with
            | none => rw [hw] at h; exact absurd h (by simp)
            | some p =>
              obtain ⟨t0, r0⟩ := p
              rw [hw] at h
              simp only [Option.some.injEq, Prod.mk.injEq] at h
              obtain ⟨ht, hr⟩ := h
              obtain ⟨hs, _, hall⟩ := ih.1 t0 r0 hw
              subst ht; subst hr; subst hs
              exact ⟨rfl, by simp [hall]⟩
          · rw [if_neg hd] at h; exact absurd h (by simp)

theorem stripBrackets_bracket (t : List Char) :
    stripBrackets ('[' :: t ++ [']']) = t := by
  simp [stripBrackets]

theorem stripBrackets_word {cs : List Char} (h : cs.all isWordChar = true) :
    stripBrackets cs = cs := by
  have hmem : ∀ c ∈ cs, isWordChar c = true := List.all_eq_true.mp h
  have h1 : cs.head? ≠ some '[' := by
    cases cs with
    | nil => simp
    | cons c rest =>
      simp only [List.head?_cons, ne_eq, Option.some.injEq]
      intro hc
      exact ne_lbracket_of_word (hmem c (by simp)) hc
  have h2 : cs.getLast? ≠ some ']' := by
    intro hc
    have hm : ']' ∈ cs := by
      obtain ⟨hne, heq⟩ :=
        @List.mem_getLast?_eq_getLast _ cs ']' (Option.mem_def.mpr hc)
      rw [heq]
      exact List.getLast_mem hne
    exact ne_rbracket_of_word (hmem _ hm) rfl
  simp [stripBrackets, h1, h2]

/-! ### Decimal rendering lemmas -/

theorem natCharsAux_zero : ∀ f, natCharsAux f 0 = [] := by
  intro f; cases f <;> rfl

theorem digitChar_isDigit {d : Nat} (h : d < 10) : (digitChar d).isDigit = true := by
  interval_cases d <;> decide

theorem digitChar_toNat {d : Nat} (h : d < 10) : (digitChar d).toNat = 48 + d := by
  interval_cases d <;> decide

theorem digitChar_ne_zeroChar {d : Nat} (h0 : 0 < d) (h : d < 10) :
    digitChar d ≠ '0' := by
  interval_cases d <;> decide

theorem natCharsAux_ne_nil {f n : Nat} (h0 : 0 < n) (hf : n ≤ f) :
    natCharsAux f n ≠ [] := by
  cases f with
  | zero => omega
  | succ g =>
    cases n with
    | zero => omega
    | succ m => simp [natCharsAux]

theorem natCharsAux_all_digits : ∀ f n, (natCharsAux f n).all Char.isDigit = true := by
  intro f
  induction f with
  | zero => intro n; rfl
  | succ g ih =>
    intro n
    cases n with
    | zero => rfl
    | succ m =>
      have hd : (m + 1) % 10 < 10 := Nat.mod_lt _ (by omega)
      simp [natCharsAux, ih, digitChar_isDigit hd]

theorem natCharsAux_foldl : ∀ f n, 0 < n → n ≤ f →
    (natCharsAux f n).foldl (fun a c => 10 * a + (c.toNat - 48)) 0 = n := by
  intro f
  induction f with
  | zero => intro n h0 hf; omega
  | succ g ih =>
    intro n h0 hf
    cases n with
    | zero => omega
    | succ m =>
      have hd : (m + 1) % 10 < 10 := Nat.mod_lt _ (by omega)
      have hdm := Nat.div_add_mod (m + 1) 10
      show (natCharsAux g ((m + 1) / 10) ++ [digitChar ((m + 1) % 10)]).foldl
        (fun a c => 10 * a + (c.toNat - 48)) 0 = m + 1
      rw [List.foldl_append]
      rcases Nat.eq_zero_or_pos ((m + 1) / 10) with hq | hq
      · rw [hq, natCharsAux_zero]
        simp only [List.foldl_cons, List.foldl_nil]
        rw [digitChar_toNat hd]
        omega
      · have hle : (m + 1) / 10 ≤ g := by
          have := Nat.div_lt_self (show 0 < m + 1 by omega) (show 1 < 10 by omega)
          omega
        rw [ih _ hq hle]
        simp only [List.foldl_cons, List.foldl_nil]
        rw [digitChar_toNat hd]
        omega

theorem natCharsAux_head_ne_zero : ∀ f n, 0 < n → n ≤ f →
    ∀ c, (natCharsAux f n).head? = some c → c ≠ '0' := by
  intro f
  induction f with
  | zero => intro n h0 hf; omega
  | succ g ih =>
    intro n h0 hf c hc
    cases n with
    | zero => omega
    | succ m =>
      have hd : (m + 1) % 10 < 10 := Nat.mod_lt _ (by omega)
      rw [show natCharsAux (g + 1) (m + 1)
          = natCharsAux g ((m + 1) / 10) ++ [digitChar ((m + 1) % 10)] from rfl,
        List.head?_append] at hc
      rcases Nat.eq_zero_or_pos ((m + 1) / 10) with hq | hq
      · rw [hq, natCharsAux_zero] at hc
        simp only [List.head?_nil, List.head?_cons, Option.none_or,
          Option.some.injEq] at hc
        subst hc
        have hm : (m + 1) % 10 = m + 1 := Nat.mod_eq_of_lt (by omega)
        exact digitChar_ne_zeroChar (by omega) hd
      · have hle : (m + 1) / 10 ≤ g := by
          have := Nat.div_lt_self (show 0 < m + 1 by omega) (show 1 < 10 by omega)
          omega
        have hne := natCharsAux_ne_nil hq hle
        cases hh : (natCharsAux g ((m + 1) / 10)).head? with
        | none => exact absurd (List.head?_eq_none_iff.mp hh) hne
        | some c0 =>
          rw [hh] at hc
          have hc2 : some c0 = some c := hc
          have hc3 := Option.some.inj hc2
          subst hc3
          exact ih _ hq hle _ hh

theorem natChars_foldl (n : Nat) :
    (natChars n).foldl (fun a c => 10 * a + (c.toNat - 48)) 0 = n := by
  unfold natChars
  split
  · next h => subst h; decide
  · next h => exact natCharsAux_foldl n n (by omega) le_rfl

theorem natChars_all_digits (n : Nat) : (natChars n).all Char.isDigit = true := by
  unfold natChars
  split
  · decide
  · exact natCharsAux_all_digits n n

theorem natChars_ne_nil (n : Nat) : natChars n ≠ [] := by
  unfold natChars
  split
  · decide
  · next h => exact natCharsAux_ne_nil (by omega) le_rfl

theorem natChars_all_word (n : Nat) : (natChars n).all isWordChar = true := by
  have h := natChars_all_digits n
  rw [List.all_eq_true] at h ⊢
  exact fun c hc => isWordChar_of_digit (h c hc)

theorem natChars_canonical (n : Nat) : isCanonicalIndex (natChars n) = true := by
  unfold isCanonicalIndex
  rcases Nat.eq_zero_or_pos n with h | h
  · subst h; decide
  · refine Bool.or_eq_true_iff.mpr (Or.inr ?_)
    rw [decide_eq_true_iff]
    intro hc
    have hne : natChars n = natCharsAux n n := by
      unfold natChars; rw [if_neg (by omega)]
    rw [hne] at hc
    exact natCharsAux_head_ne_zero n n h le_rfl '0' hc rfl

/-! ### Index-key and array-key lemmas -/

theorem isIndexKey_digits {cs : List Char} (h1 : cs ≠ [])
    (h2 : cs.all Char.isDigit = true) : isIndexKey cs = true := by
  unfold isIndexKey
  split
  · next ds =>
    simp only [List.all_cons, Bool.and_eq_true] at h2
    exact absurd h2.1 (by decide)
  · have he : cs.isEmpty = false := by
      cases cs with
      | nil => exact absurd rfl h1
      | cons c rest => rfl
    simp [he, h2]

theorem natChars_isIndexKey (n : Nat) : isIndexKey (natChars n) = true :=
  isIndexKey_digits (natChars_ne_nil n) (natChars_all_digits n)

theorem word_of_isIndexKey {cs : List Char} (h : isIndexKey cs = true) :
    cs.all isWordChar = true := by
  unfold isIndexKey at h
  split at h
  · next ds =>
    simp only [Bool.and_eq_true, List.all_eq_true] at h
    rw [List.all_eq_true]
    intro c hc
    rcases List.mem_cons.mp hc with hc | hc
    · subst hc; decide
    · exact isWordChar_of_digit (h.2 c hc)
  · simp only [Bool.and_eq_true, List.all_eq_true] at h
    rw [List.all_eq_true]
    exact fun c hc => isWordChar_of_digit (h.2 c hc)

theorem isArrayKey_word {cs : List Char} (h : cs.all isWordChar = true) :
    isArrayKey cs = false := by
  unfold isArrayKey
  split
  · next rest =>
    simp only [List.all_cons, Bool.and_eq_true] at h
    exact absurd h.1 (by decide)
  · rfl

theorem head_ne_dash_of_digits {cs : List Char}
    (h : cs.all Char.isDigit = true) : cs.head? ≠ some '-' := by
  cases cs with
  | nil => simp
  | cons c rest =>
    simp only [List.all_cons, Bool.and_eq_true] at h
    simp only [List.head?_cons, ne_eq, Option.some.injEq]
    exact ne_dash_of_digit h.1

/-! ### Array access helpers -/

theorem resolveIdx_ofNat (len n : Nat) : resolveIdx len (n : Int) = (n : Int) :=
  if_neg (by omega)

theorem posOf_ofNat (len n : Nat) :
    posOf len (n : Int) = if n < len then some n else none := by
  unfold posOf
  rw [resolveIdx_ofNat]
  by_cases h : n < len
  · rw [if_pos ⟨by omega, by omega⟩, if_pos h]
    simp
  · rw [if_neg (by omega), if_neg h]

theorem jsAt_ofNat (xs : List JSValue) (n : Nat) :
    jsAt xs (n : Int) = xs.getD n .undef := by
  unfold jsAt
  rw [posOf_ofNat]
  by_cases h : n < xs.length
  · rw [if_pos h]
  · rw [if_neg h, List.getD_eq_default _ _ (by omega)]

theorem getD_replicate_append (n : Nat) (x y : JSValue) :
    (List.replicate n x ++ [y]).getD n .undef = y := by
  rw [List.getD_append_right _ _ _ _ (by simp)]
  simp

theorem set_replicate_append (n : Nat) (x y z : JSValue) :
    (List.replicate n x ++ [y]).set n z = List.replicate n x ++ [z] := by
  induction n with
  | zero => rfl
  | succ m ih => simp [List.replicate_succ, ih]

/-! ### Scanner lemmas -/

theorem takeWordRun_split : ∀ cs : List Char,
    (takeWordRun cs).1 ++ (takeWordRun cs).2 = cs := by
  intro cs
  induction cs with
  | nil => rfl
  | cons c rest ih =>
    by_cases hc : isWordChar c = true
    · simp [takeWordRun, hc, ih]
    · simp [takeWordRun, hc]

theorem takeWordRun_all : ∀ cs : List Char,
    ((takeWordRun cs).1).all isWordChar = true := by
  intro cs
  induction cs with
  | nil => rfl
  | cons c rest ih =>
    by_cases hc : isWordChar c = true
    · simp [takeWordRun, hc, ih]
    · simp [takeWordRun, hc]

theorem takeWordRun_word_ne {c : Char} {rest : List Char}
    (hc : isWordChar c = true) : (takeWordRun (c :: rest)).1 ≠ [] := by
  simp [takeWordRun, hc]

/-- Token shape produced by one read-side match: non-empty, within the input
length, consuming at least one character, and either the star, a word run,
or a bracket with non-empty content. -/
theorem readTryToken_some {p : Bool} {cs tok rest' : List Char}
    (h : readTryToken p cs = some (tok, rest')) :
    tok ≠ [] ∧ tok.length + rest'.length ≤ cs.length ∧
      rest'.length < cs.length ∧
      (tok = ['*'] ∨ tok.all isWordChar = true ∨
        ∃ content, tok = '[' :: content ++ [']'] ∧ content ≠ []) := by
  cases cs with
  | nil => simp [readTryToken] at h
  | cons c rest =>
    simp only [readTryToken] at h
    by_cases hstar : c = '*'
    · subst hstar
      rw [if_pos rfl] at h
      simp only [Option.some.injEq, Prod.mk.injEq] at h
      obtain ⟨h1, h2⟩ := h
      subst h1; subst h2
      refine ⟨by simp, ?_, ?_, Or.inl rfl⟩
      · simp only [List.length_cons, List.length_nil]; omega
      · simp only [List.length_cons]; omega
    · rw [if_neg hstar] at h
      by_cases hbr : (p && c = '[') = true
      · rw [if_pos hbr] at h
        cases hbw : brWord rest with
        | none => simp [hbw] at h
        | some q =>
          obtain ⟨content, r2⟩ := q
          simp only [hbw] at h
          by_cases hld : lookDotEnd r2 = true
          · rw [if_pos hld] at h
            simp only [Option.some.injEq, Prod.mk.injEq] at h
            obtain ⟨h1, h2⟩ := h
            subst h1; subst h2
            obtain ⟨hrest, hcne, _⟩ := (brWord_struct rest).1 content r2 hbw
            subst hrest
            refine ⟨by simp, ?_, ?_, Or.inr (Or.inr ⟨content, rfl, hcne⟩)⟩
            · simp only [List.length_cons, List.length_append,
                List.length_nil]
              omega
            · simp only [List.length_cons, List.length_append,
                List.length_nil]
              omega
          · rw [if_neg hld] at h; exact absurd h (by simp)
      · rw [if_neg hbr] at h
        by_cases hw : (p && isWordChar c) = true
        · rw [if_pos hw] at h
          by_cases hld : lookDotEnd (takeWordRun (c :: rest)).2 = true
          · rw [if_pos hld] at h
            simp only [Option.some.injEq, Prod.mk.injEq] at h
            obtain ⟨h1, h2⟩ := h
            subst h1; subst h2
            have hsplit := takeWordRun_split (c :: rest)
            have hcw : isWordChar c = true := by
              revert hw; cases p <;> simp
            have hne := @takeWordRun_word_ne c rest hcw
            have hlen : ((takeWordRun (c :: rest)).1).length
                + ((takeWordRun (c :: rest)).2).length = rest.length + 1 := by
              have hq := congrArg List.length hsplit
              simp only [List.length_append, List.length_cons] at hq
              omega
            have h1l : 1 ≤ ((takeWordRun (c :: rest)).1).length := by
              cases htok : (takeWordRun (c :: rest)).1 with
              | nil => exact absurd htok hne
              | cons a b => simp
            refine ⟨hne, ?_, ?_, Or.inr (Or.inl (takeWordRun_all (c :: rest)))⟩
            · simp only [List.length_cons]; omega
            · simp only [List.length_cons]; omega
          · rw [if_neg hld] at h; exact absurd h (by simp)
        · rw [if_neg hw] at h; exact absurd h (by simp)

/-- Token shape produced by one write-side match: non-empty and consuming at
least one character. -/
theorem writeTryToken_some {p : Bool} {cs tok rest' : List Char}
    (h : writeTryToken p cs = some (tok, rest')) :
    tok ≠ [] ∧ tok.length + rest'.length ≤ cs.length ∧
      rest'.length < cs.length := by
  cases cs with
  | nil => simp [writeTryToken] at h
  | cons c rest =>
    simp only [writeTryToken] at h
    by_cases hbr : (p && c = '[') = true
    · rw [if_pos hbr] at h
      cases rest with
      | nil =>
        simp [brWord] at h
      | cons c2 rest2 =>
        by_cases hc2 : c2 = ']'
        · subst hc2
          simp only [Option.some.injEq, Prod.mk.injEq] at h
          obtain ⟨h1, h2⟩ := h
          subst h1; subst h2
          refine ⟨by simp, ?_, ?_⟩
          · simp only [List.length_cons, List.length_nil]; omega
          · simp only [List.length_cons]; omega
        · split at h
          · next heq => exact absurd (List.cons.inj heq).1 hc2
          · cases hbw : brWord (c2 :: rest2) with
            | none => simp [hbw] at h
            | some q =>
              obtain ⟨content, r2⟩ := q
              simp only [hbw] at h
              simp only [Option.some.injEq, Prod.mk.injEq] at h
              obtain ⟨h1, h2⟩ := h
              subst h1; subst h2
              obtain ⟨hrest, hcne, _⟩ :=
                (brWord_struct (c2 :: rest2)).1 content r2 hbw
              have hq := congrArg List.length hrest
              simp only [List.length_cons, List.length_append,
                List.length_nil] at hq
              refine ⟨by simp, ?_, ?_⟩
              · simp only [List.length_cons, List.length_append,
                  List.length_nil]
                omega
              · simp only [List.length_cons]
                omega
    · rw [if_neg hbr] at h
      by_cases hw : isWordChar c = true
      · rw [if_pos hw] at h
        by_cases hld : lookDotEnd (takeWordRun (c :: rest)).2 = true
        · rw [if_pos hld] at h
          simp only [Option.some.injEq, Prod.mk.injEq] at h
          obtain ⟨h1, h2⟩ := h
          subst h1; subst h2
          have hsplit := takeWordRun_split (c :: rest)
          have hne := @takeWordRun_word_ne c rest hw
          have hlen : ((takeWordRun (c :: rest)).1).length
              + ((takeWordRun (c :: rest)).2).length = rest.length + 1 := by
            have hq := congrArg List.length hsplit
            simp only [List.length_append, List.length_cons] at hq
            omega
          have h1l : 1 ≤ ((takeWordRun (c :: rest)).1).length := by
            cases htok : (takeWordRun (c :: rest)).1 with
            | nil => exact absurd htok hne
            | cons a b => simp
          refine ⟨hne, ?_, ?_⟩
          · simp only [List.length_cons]; omega
          · simp only [List.length_cons]; omega
        · rw [if_neg hld] at h; exact absurd h (by simp)
      · rw [if_neg hw] at h; exact absurd h (by simp)

theorem readScanF_nil : ∀ n p, readScanF n p [] = [] := by
  intro n p; cases n <;> rfl

theorem writeScanF_nil : ∀ n p, writeScanF n p [] = [] := by
  intro n p; cases n <;> rfl

/-- Every token the read scan emits is non-empty, no longer than the input,
and is the star, a word run, or a bracket with non-empty content. -/
theorem readScanF_shape : ∀ n (p : Bool) (cs seg : List Char),
    seg ∈ readScanF n p cs →
    seg ≠ [] ∧ seg.length ≤ cs.length ∧
      (seg = ['*'] ∨ seg.all isWordChar = true ∨
        ∃ content, seg = '[' :: content ++ [']'] ∧ content ≠ []) := by
  intro n
  induction n with
  | zero => intro p cs seg h; simp [readScanF] at h
  | succ m ih =>
    intro p cs seg h
    cases cs with
    | nil => simp [readScanF] at h
    | cons c rest =>
      rw [show readScanF (m + 1) p (c :: rest)
          = (match readTryToken p (c :: rest) with
             | some (tok, rest') => tok :: readScanF m false rest'
             | none => readScanF m (c = '.') rest) from rfl] at h
      cases htk : readTryToken p (c :: rest) with
      | none =>
        simp only [htk] at h
        obtain ⟨h1, h2, h3⟩ := ih _ _ _ h
        refine ⟨h1, by simp only [List.length_cons]; omega, h3⟩
      | some q =>
        obtain ⟨tok, rest'⟩ := q
        simp only [htk] at h
        rcases List.mem_cons.mp h with hseg | hseg
        · subst hseg
          obtain ⟨h1, h2, _, h4⟩ := readTryToken_some htk
          exact ⟨h1, by omega, h4⟩
        · obtain ⟨h1, h2, h3⟩ := ih _ _ _ hseg
          obtain ⟨_, _, hlt, _⟩ := readTryToken_some htk
          exact ⟨h1, by omega, h3⟩

/-- Every token the write scan emits is non-empty and no longer than the
input. -/
theorem writeScanF_nonempty : ∀ n (p : Bool) (cs seg : List Char),
    seg ∈ writeScanF n p cs → seg ≠ [] ∧ seg.length ≤ cs.length := by
  intro n
  induction n with
  | zero => intro p cs seg h; simp [writeScanF] at h
  | succ m ih =>
    intro p cs seg h
    cases cs with
    | nil => simp [writeScanF] at h
    | cons c rest =>
      rw [show writeScanF (m + 1) p (c :: rest)
          = (match writeTryToken p (c :: rest) with
             | some (tok, rest') => tok :: writeScanF m false rest'
             | none => writeScanF m (c = '.') rest) from rfl] at h
      cases htk : writeTryToken p (c :: rest) with
      | none =>
        simp only [htk] at h
        obtain ⟨h1, h2⟩ := ih _ _ _ h
        exact ⟨h1, by simp only [List.length_cons]; omega⟩
      | some q =>
        obtain ⟨tok, rest'⟩ := q
        simp only [htk] at h
        rcases List.mem_cons.mp h with hseg | hseg
        · subst hseg
          obtain ⟨h1, h2, _⟩ := writeTryToken_some htk
          exact ⟨h1, by omega⟩
        · obtain ⟨h1, h2⟩ := ih _ _ _ hseg
          obtain ⟨_, _, hlt⟩ := writeTryToken_some htk
          exact ⟨h1, by omega⟩

/-- A word run followed by a dot (or by nothing) matches as one token on the
read side. -/
theorem readTryToken_word {w R : List Char} (hne : w ≠ [])
    (hw : w.all isWordChar = true) (hR : lookDotEnd R = true)
    (hRw : ∀ c, R.head? = some c → isWordChar c = false) :
    readTryToken true (w ++ R) = some (w, R) := by
  cases w with
  | nil => exact absurd rfl hne
  | cons c w2 =>
    simp only [List.all_cons, Bool.and_eq_true] at hw
    have htw : takeWordRun ((c :: w2) ++ R) = (c :: w2, R) :=
      takeWordRun_append (by simp [hw.1, hw.2]) hRw
    show readTryToken true (c :: (w2 ++ R)) = some (c :: w2, R)
    simp only [readTryToken]
    rw [if_neg (ne_star_of_word hw.1)]
    rw [if_neg (by simp [ne_lbracket_of_word hw.1])]
    rw [if_pos (by simp [hw.1])]
    simp only [show (c :: w2) ++ R = c :: (w2 ++ R) from rfl] at htw
    rw [htw, if_pos hR]

/-- The same on the write side. -/
theorem writeTryToken_word {w R : List Char} (hne : w ≠ [])
    (hw : w.all isWordChar = true) (hR : lookDotEnd R = true)
    (hRw : ∀ c, R.head? = some c → isWordChar c = false) :
    writeTryToken true (w ++ R) = some (w, R) := by
  cases w with
  | nil => exact absurd rfl hne
  | cons c w2 =>
    simp only [List.all_cons, Bool.and_eq_true] at hw
    have htw : takeWordRun ((c :: w2) ++ R) = (c :: w2, R) :=
      takeWordRun_append (by simp [hw.1, hw.2]) hRw
    show writeTryToken true (c :: (w2 ++ R)) = some (c :: w2, R)
    simp only [writeTryToken]
    rw [if_neg (by simp [ne_lbracket_of_word hw.1])]
    rw [if_pos hw.1]
    simp only [show (c :: w2) ++ R = c :: (w2 ++ R) from rfl] at htw
    rw [htw, if_pos hR]

theorem readTryToken_dot (R : List Char) :
    readTryToken false ('.' :: R) = none := by
  simp [readTryToken]

theorem writeTryToken_dot (R : List Char) :
    writeTryToken false ('.' :: R) = none := by
  simp [writeTryToken, isWordChar]

theorem segChars_ne {s : PathSeg} (hv : validSeg s) : segChars s ≠ [] := by
  cases s with
  | key k => exact hv.1
  | idx n => exact natChars_ne_nil n

theorem segChars_word {s : PathSeg} (hv : validSeg s) :
    (segChars s).all isWordChar = true := by
  cases s with
  | key k => exact hv.2.1
  | idx n => exact natChars_all_word n

theorem renderPath_ne_nil {segs : List PathSeg}
    (hv : ∀ s ∈ segs, validSeg s) (hne : segs ≠ []) :
    renderPath segs ≠ [] := by
  cases segs with
  | nil => exact absurd rfl hne
  | cons s rest =>
    cases rest with
    | nil => exact segChars_ne (hv s (by simp))
    | cons s2 rest2 =>
      show segChars s ++ '.' :: renderPath (s2 :: rest2) ≠ []
      simp

/-- Scanning one all-word token consumes the whole input. -/
theorem readScanF_word_all {cs : List Char} (hne : cs ≠ [])
    (hw : cs.all isWordChar = true) :
    ∀ n, cs.length ≤ n → readScanF n true cs = [cs] := by
  intro n hn
  cases cs with
  | nil => exact absurd rfl hne
  | cons c rest =>
    cases n with
    | zero => simp only [List.length_cons] at hn; omega
    | succ m =>
      have h1 : readTryToken true (c :: rest) = some (c :: rest, []) := by
        have h2 := @readTryToken_word (c :: rest) [] hne hw rfl (by simp)
        simpa using h2
      rw [show readScanF (m + 1) true (c :: rest)
          = (match readTryToken true (c :: rest) with
             | some (tok, rest') => tok :: readScanF m false rest'
             | none => readScanF m (c = '.') rest) from rfl]
      simp only [h1]
      rw [readScanF_nil]

/-- The same on the write side. -/
theorem writeScanF_word_all {cs : List Char} (hne : cs ≠ [])
    (hw : cs.all isWordChar = true) :
    ∀ n, cs.length ≤ n → writeScanF n true cs = [cs] := by
  intro n hn
  cases cs with
  | nil => exact absurd rfl hne
  | cons c rest =>
    cases n with
    | zero => simp only [List.length_cons] at hn; omega
    | succ m =>
      have h1 : writeTryToken true (c :: rest) = some (c :: rest, []) := by
        have h2 := @writeTryToken_word (c :: rest) [] hne hw rfl (by simp)
        simpa using h2
      rw [show writeScanF (m + 1) true (c :: rest)
          = (match writeTryToken true (c :: rest) with
             | some (tok, rest') => tok :: writeScanF m false rest'
             | none => writeScanF m (c = '.') rest) from rfl]
      simp only [h1]
      rw [writeScanF_nil]

/-- Scanning a rendered valid path returns exactly its segments (read). -/
theorem readScanF_render : ∀ segs : List PathSeg,
    (∀ s ∈ segs, validSeg s) → ∀ n, (renderPath segs).length ≤ n →
    readScanF n true (renderPath segs) = segs.map segChars := by
  intro segs
  induction segs with
  | nil =>
    intro _ n _
    show readScanF n true [] = []
    exact readScanF_nil n true
  | cons s rest ih =>
    intro hv n hn
    have hvs : validSeg s := hv s (by simp)
    cases rest with
    | nil =>
      show readScanF n true (segChars s) = [segChars s]
      exact readScanF_word_all (segChars_ne hvs) (segChars_word hvs) n hn
    | cons s2 rest2 =>
      have hvr : ∀ t ∈ s2 :: rest2, validSeg t := fun t ht =>
        hv t (List.mem_cons_of_mem s ht)
      have hRne : renderPath (s2 :: rest2) ≠ [] :=
        renderPath_ne_nil hvr (by simp)
      have htok : readTryToken true
          (segChars s ++ '.' :: renderPath (s2 :: rest2))
          = some (segChars s, '.' :: renderPath (s2 :: rest2)) :=
        readTryToken_word (segChars_ne hvs) (segChars_word hvs) rfl
          (by intro c hc
              simp only [List.head?_cons, Option.some.injEq] at hc
              subst hc
              decide)
      have hlen : (renderPath (s :: s2 :: rest2)).length
          = (segChars s).length + 1 + (renderPath (s2 :: rest2)).length := by
        show (segChars s ++ '.' :: renderPath (s2 :: rest2)).length = _
        simp only [List.length_append, List.length_cons]
        omega
      have hw1 : 1 ≤ (segChars s).length := by
        cases hx : segChars s with
        | nil => exact absurd hx (segChars_ne hvs)
        | cons a b => simp
      show readScanF n true (segChars s ++ '.' :: renderPath (s2 :: rest2))
          = segChars s :: (s2 :: rest2).map segChars
      cases hcs : segChars s with
      | nil => exact absurd hcs (segChars_ne hvs)
      | cons c w2 =>
        cases n with
        | zero => rw [hlen] at hn; omega
        | succ m =>
          rw [hcs] at htok
          rw [show (c :: w2) ++ '.' :: renderPath (s2 :: rest2)
              = c :: (w2 ++ '.' :: renderPath (s2 :: rest2)) from rfl] at htok ⊢
          rw [show readScanF (m + 1) true
              (c :: (w2 ++ '.' :: renderPath (s2 :: rest2)))
              = (match readTryToken true
                  (c :: (w2 ++ '.' :: renderPath (s2 :: rest2))) with
                 | some (tok, rest') => tok :: readScanF m false rest'
                 | none => readScanF m (c = '.')
                     (w2 ++ '.' :: renderPath (s2 :: rest2))) from rfl]
          simp only [htok]
          cases m with
          | zero => rw [hlen, hcs] at hn; simp at hn; omega
          | succ m2 =>
            rw [show readScanF (m2 + 1) false
                ('.' :: renderPath (s2 :: rest2))
                = (match readTryToken false ('.' :: renderPath (s2 :: rest2)) with
                   | some (tok, rest') => tok :: readScanF m2 false rest'
                   | none => readScanF m2
                       (('.' : Char) = '.') (renderPath (s2 :: rest2)))
                from rfl]
            simp only [readTryToken_dot]
            rw [show (decide True) = true from rfl]
            rw [ih hvr m2 (by rw [hlen, hcs] at hn; simp at hn; omega)]

/-- Scanning a rendered valid path returns exactly its segments (write). -/
theorem writeScanF_render : ∀ segs : List PathSeg,
    (∀ s ∈ segs, validSeg s) → ∀ n, (renderPath segs).length ≤ n →
    writeScanF n true (renderPath segs) = segs.map segChars := by
  intro segs
  induction segs with
  | nil =>
    intro _ n _
    show writeScanF n true [] = []
    exact writeScanF_nil n true
  | cons s rest ih =>
    intro hv n hn
    have hvs : validSeg s := hv s (by simp)
    cases rest with
    | nil =>
      show writeScanF n true (segChars s) = [segChars s]
      exact writeScanF_word_all (segChars_ne hvs) (segChars_word hvs) n hn
    | cons s2 rest2 =>
      have hvr : ∀ t ∈ s2 :: rest2, validSeg t := fun t ht =>
        hv t (List.mem_cons_of_mem s ht)
      have htok : writeTryToken true
          (segChars s ++ '.' :: renderPath (s2 :: rest2))
          = some (segChars s, '.' :: renderPath (s2 :: rest2)) :=
        writeTryToken_word (segChars_ne hvs) (segChars_word hvs) rfl
          (by intro c hc
              simp only [List.head?_cons, Option.some.injEq] at hc
              subst hc
              decide)
      have hlen : (renderPath (s :: s2 :: rest2)).length
          = (segChars s).length + 1 + (renderPath (s2 :: rest2)).length := by
        show (segChars s ++ '.' :: renderPath (s2 :: rest2)).length = _
        simp only [List.length_append, List.length_cons]
        omega
      have hw1 : 1 ≤ (segChars s).length := by
        cases hx : segChars s with
        | nil => exact absurd hx (segChars_ne hvs)
        | cons a b => simp
      show writeScanF n true (segChars s ++ '.' :: renderPath (s2 :: rest2))
          = segChars s :: (s2 :: rest2).map segChars
      cases hcs : segChars s with
      | nil => exact absurd hcs (segChars_ne hvs)
      | cons c w2 =>
        cases n with
        | zero => rw [hlen] at hn; omega
        | succ m =>
          rw [hcs] at htok
          rw [show (c :: w2) ++ '.' :: renderPath (s2 :: rest2)
              = c :: (w2 ++ '.' :: renderPath (s2 :: rest2)) from rfl] at htok ⊢
          rw [show writeScanF (m + 1) true
              (c :: (w2 ++ '.' :: renderPath (s2 :: rest2)))
              = (match writeTryToken true
                  (c :: (w2 ++ '.' :: renderPath (s2 :: rest2))) with
                 | some (tok, rest') => tok :: writeScanF m false rest'
                 | none => writeScanF m (c = '.')
                     (w2 ++ '.' :: renderPath (s2 :: rest2))) from rfl]
          simp only [htok]
          cases m with
          | zero => rw [hlen, hcs] at hn; simp at hn; omega
          | succ m2 =>
            rw [show writeScanF (m2 + 1) false
                ('.' :: renderPath (s2 :: rest2))
                = (match writeTryToken false ('.' :: renderPath (s2 :: rest2)) with
                   | some (tok, rest') => tok :: writeScanF m2 false rest'
                   | none => writeScanF m2
                       (('.' : Char) = '.') (renderPath (s2 :: rest2)))
                from rfl]
            simp only [writeTryToken_dot]
            rw [show (decide True) = true from rfl]
            rw [ih hvr m2 (by rw [hlen, hcs] at hn; simp at hn; omega)]

/-! ### Evaluation lemmas for writes and reads along rendered paths -/

theorem valueOrUndef_eq {v : JSValue} (h1 : isNull v = false)
    (h2 : isUndefined v = false) : valueOrUndef v = v := by
  cases v <;> simp_all [valueOrUndef, isNull, isUndefined]

theorem isEmpty_false_of_ne {cs : List Char} (h : cs ≠ []) :
    cs.isEmpty = false := by
  cases cs with
  | nil => exact absurd rfl h
  | cons c r => rfl

theorem word_ne_star {cs : List Char} (h : cs.all isWordChar = true) :
    cs ≠ ['*'] := by
  intro hc
  subst hc
  simp only [List.all_cons, List.all_nil, Bool.and_true] at h
  exact absurd h (by decide)

theorem parseIndex_digits {cs : List Char} (h : cs.all Char.isDigit = true) :
    parseIndex cs
      = ((cs.foldl (fun a c => 10 * a + (c.toNat - 48)) 0 : Nat) : Int) := by
  unfold parseIndex
  split
  · next ds =>
    simp only [List.all_cons, Bool.and_eq_true] at h
    exact absurd h.1 (by decide)
  · rfl

theorem parseIndex_natChars (n : Nat) : parseIndex (natChars n) = (n : Int) := by
  rw [parseIndex_digits (natChars_all_digits n), natChars_foldl]

theorem objSet_single (k : String) (x y : JSValue) :
    objSet [(k, x)] k y = [(k, y)] := by
  simp [objSet]

theorem objGet_single (k : String) (x : JSValue) :
    objGet [(k, x)] k = x := by
  simp [objGet]

theorem arrSetNonNeg_natChars (xs : List JSValue) (n : Nat) (v : JSValue) :
    arrSetNonNeg xs (natChars n) v
      = if n < xs.length then xs.set n v
        else xs ++ List.replicate (n - xs.length) .undef ++ [v] := by
  unfold arrSetNonNeg
  rw [if_pos (natChars_canonical n), parseIndex_natChars]
  simp

/-- One writeValue step along a fresh path materialises exactly the buildJS
skeleton with value ?? undefined at the leaf, whatever the re-entry callback
is (the key/index fragment of the grammar never broadcasts). -/
theorem writeGo_build
    (recur : JSValue → List Char → JSValue → Except JSErr JSValue)
    (v : JSValue) :
    ∀ (rest : List PathSeg) (s : PathSeg), validSeg s →
      (∀ t ∈ rest, validSeg t) →
      writeGo recur v (freshFor s) ((s :: rest).map segChars)
        = .ok (buildJS (valueOrUndef v) (s :: rest)) := by
  intro rest
  induction rest with
  | nil =>
    intro s hvs _
    cases s with
    | key k =>
      show writeGo recur v (.obj []) [k] = .ok (.obj [(String.mk k, valueOrUndef v)])
      rw [writeGo]
      · rw [if_neg (by simp [isArrayKey_word hvs.2.1, hvs.2.2])]
        simp [jsGetProp, objGet, jsSetProp, objSet, getNextValue, isObject,
          isArray]
      · intro elems h; cases h
    | idx n =>
      show writeGo recur v (.arr []) [natChars n]
          = .ok (.arr (List.replicate n .undef ++ [valueOrUndef v]))
      rw [writeGo]
      rw [if_pos (by simp [natChars_isIndexKey n])]
      rw [stripBrackets_word (natChars_all_word n)]
      rw [if_neg (by simp [isEmpty_false_of_ne (natChars_ne_nil n)])]
      rw [if_pos (natChars_isIndexKey n)]
      have hd : ¬((natChars n).head? = some '-') := by
        simpa using head_ne_dash_of_digits (natChars_all_digits n)
      simp [jsAt_ofNat, parseIndex_natChars, getNextValue, isObject, isArray,
        hd, arrSetNonNeg_natChars]
  | cons s2 rest2 ih =>
    intro s hvs hvr
    have hvs2 : validSeg s2 := hvr s2 (by simp)
    have hvr2 : ∀ t ∈ rest2, validSeg t := fun t ht =>
      hvr t (List.mem_cons_of_mem s2 ht)
    have hrec := ih s2 hvs2 hvr2
    cases s with
    | key k =>
      show writeGo recur v (.obj []) (k :: segChars s2 :: rest2.map segChars)
          = .ok (.obj [(String.mk k, buildJS (valueOrUndef v) (s2 :: rest2))])
      rw [writeGo]
      · rw [if_neg (by simp [isArrayKey_word hvs.2.1, hvs.2.2])]
        cases s2 with
        | key k2 =>
          have hb2 : (isArrayKey k2 || isIndexKey k2) = false := by
            simp [isArrayKey_word hvs2.2.1, hvs2.2.2]
          have hrec2 : writeGo recur v (.obj [])
              (k2 :: List.map segChars rest2)
              = Except.ok (buildJS (valueOrUndef v) (.key k2 :: rest2)) := hrec
          simp [segChars, jsGetProp, objGet, hb2, isObject, getNextValue,
            isArray, jsSetProp, objSet, hrec2]
          rfl
        | idx n2 =>
          have hb2 : (isArrayKey (natChars n2) || isIndexKey (natChars n2))
              = true := by simp [natChars_isIndexKey n2]
          have hrec2 : writeGo recur v (.arr [])
              (natChars n2 :: List.map segChars rest2)
              = Except.ok (buildJS (valueOrUndef v) (.idx n2 :: rest2)) := hrec
          simp [segChars, jsGetProp, objGet, hb2, isObject, getNextValue,
            isArray, jsSetProp, objSet, hrec2]
          rfl
      · intro elems h; cases h
    | idx n =>
      show writeGo recur v (.arr [])
          (natChars n :: segChars s2 :: rest2.map segChars)
          = .ok (.arr (List.replicate n .undef
              ++ [buildJS (valueOrUndef v) (s2 :: rest2)]))
      rw [writeGo]
      rw [if_pos (by simp [natChars_isIndexKey n])]
      rw [stripBrackets_word (natChars_all_word n)]
      rw [if_neg (by simp [isEmpty_false_of_ne (natChars_ne_nil n)])]
      rw [if_pos (natChars_isIndexKey n)]
      have hd : ¬((natChars n).head? = some '-') := by
        simpa using head_ne_dash_of_digits (natChars_all_digits n)
      cases s2 with
      | key k2 =>
        have hb2 : (isArrayKey k2 || isIndexKey k2) = false := by
          simp [isArrayKey_word hvs2.2.1, hvs2.2.2]
        have hrec2 : writeGo recur v (.obj [])
            (k2 :: List.map segChars rest2)
            = Except.ok (buildJS (valueOrUndef v) (.key k2 :: rest2)) := hrec
        simp only [segChars, jsAt_ofNat, parseIndex_natChars, List.getD_nil, hb2,
          Bool.false_eq_true, if_false, isObject, isArray, Bool.not_false,
          if_true, List.isEmpty_cons, getNextValue, hd,
          arrSetNonNeg_natChars, List.length_nil, Nat.not_lt_zero,
          Nat.sub_zero, List.nil_append]
        rw [show (List.replicate n JSValue.undef ++ [JSValue.obj []]).length
            = n + 1 from by simp]
        rw [posOf_ofNat, if_pos (by omega)]
        simp [getD_replicate_append, hrec2, set_replicate_append]
        rfl
      | idx n2 =>
        have hb2 : (isArrayKey (natChars n2) || isIndexKey (natChars n2))
            = true := by simp [natChars_isIndexKey n2]
        have hrec2 : writeGo recur v (.arr [])
            (natChars n2 :: List.map segChars rest2)
            = Except.ok (buildJS (valueOrUndef v) (.idx n2 :: rest2)) := hrec
        simp only [segChars, jsAt_ofNat, parseIndex_natChars, List.getD_nil, hb2,
          if_true, Bool.false_eq_true, if_false, isObject, isArray,
          Bool.not_false, List.isEmpty_cons, getNextValue, hd,
          arrSetNonNeg_natChars, List.length_nil, Nat.not_lt_zero,
          Nat.sub_zero, List.nil_append]
        rw [show (List.replicate n JSValue.undef ++ [JSValue.arr []]).length
            = n + 1 from by simp]
        rw [posOf_ofNat, if_pos (by omega)]
        simp [getD_replicate_append, hrec2, set_replicate_append]
        rfl

/-- Reading back along a segment path through the buildJS skeleton returns
the stored leaf value, whatever the re-entry callback is (no segment of the
skeleton path is bracketed). -/
theorem readGo_build
    (recur : JSValue → List Char → Except JSErr JSValue)
    (stored : JSValue) :
    ∀ segs : List PathSeg, (∀ s ∈ segs, validSeg s) →
      readGo recur (buildJS stored segs) (segs.map segChars)
        = .ok stored := by
  intro segs
  induction segs with
  | nil => intro _; rfl
  | cons s rest ih =>
    intro hv
    have hvs : validSeg s := hv s (by simp)
    have hvr : ∀ t ∈ rest, validSeg t := fun t ht => hv t (by simp [ht])
    cases s with
    | key k =>
      show readGo recur (.obj [(String.mk k, buildJS stored rest)])
        (k :: rest.map segChars) = .ok stored
      rw [readGo]
      rw [if_neg (by simp [isEmpty_false_of_ne hvs.1])]
      rw [if_neg (word_ne_star hvs.2.1)]
      rw [if_neg (by simp [isArrayKey_word hvs.2.1, hvs.2.2])]
      simp only [objGet_single]
      exact ih hvr
    | idx n =>
      simp only [List.map_cons, segChars, buildJS]
      rw [readGo]
      · rw [if_neg (by simp [isEmpty_false_of_ne (natChars_ne_nil n)])]
        rw [if_neg (word_ne_star (natChars_all_word n))]
        rw [if_pos (by simp [natChars_isIndexKey])]
        simp only [stripBrackets_word (natChars_all_word n),
          isEmpty_false_of_ne (natChars_ne_nil n), Bool.false_eq_true,
          if_false, natChars_isIndexKey, if_true, parseIndex_natChars,
          jsAt_ofNat, getD_replicate_append]
        exact ih hvr
      · intro fields h
        cases h

/-- readValue over the buildJS skeleton recovers the stored leaf. -/
theorem readValueC_build (stored : JSValue) (segs : List PathSeg)
    (hv : ∀ s ∈ segs, validSeg s) (hne : segs ≠ []) :
    readValueC (buildJS stored segs) (renderPath segs) = .ok stored := by
  unfold readValueC
  rw [readValF]
  rw [if_neg (by simp [isEmpty_false_of_ne (renderPath_ne_nil hv hne)])]
  rw [show readScan (renderPath segs) = segs.map segChars from
    readScanF_render segs hv _ (by simp [readScan])]
  cases segs with
  | nil => exact absurd rfl hne
  | cons s rest =>
    rw [List.map_cons]
    exact readGo_build _ stored (s :: rest) hv

/-- writeValue into a fresh empty object along a key-first segment path
materialises exactly the buildJS skeleton. -/
theorem writeValueC_fresh (v : JSValue) (hv : isUndefined v = false)
    (s0 : PathSeg) (segs : List PathSeg) (h0 : isKeySeg s0)
    (hvall : ∀ s ∈ s0 :: segs, validSeg s) :
    writeValueC (.obj []) (renderPath (s0 :: segs)) v
      = .ok (buildJS (valueOrUndef v) (s0 :: segs)) := by
  unfold writeValueC
  show writeValF ((renderPath (s0 :: segs)).length + 1 + 1 + 1)
    (.obj []) (renderPath (s0 :: segs)) v = _
  rw [writeValF]
  rw [if_neg (by simp [hv])]
  rw [show writeScan (renderPath (s0 :: segs)) = (s0 :: segs).map segChars
    from writeScanF_render (s0 :: segs) hvall _ (by simp [writeScan])]
  rw [List.map_cons]
  cases s0 with
  | key k =>
    have := writeGo_build
      (writeValF ((renderPath (.key k :: segs)).length + 1 + 1)) v segs
      (.key k) (hvall _ (by simp)) (fun t ht => hvall t (by simp [ht]))
    rw [List.map_cons] at this
    exact this
  | idx n => exact h0.elim

/-- Unfolding of the read fold body on a non-empty token list (the outer
match of readGo distinguishes only the token list, so this holds for every
current value by reduction). -/
theorem readGo_cons (recur : JSValue → List Char → Except JSErr JSValue)
    (cur : JSValue) (seg : List Char) (rest : List (List Char)) :
    readGo recur cur (seg :: rest) =
      (if seg.isEmpty then .error .invalidPath
       else if seg = ['*'] then readGo recur cur rest
       else if isArrayKey seg || isIndexKey seg then
         let clean := stripBrackets seg
         match cur with
         | .arr xs =>
           if clean.isEmpty then readGo recur .undef rest
           else if isIndexKey clean then
             readGo recur (jsAt xs (parseIndex clean)) rest
           else do
             let vs ← xs.mapM fun item =>
               if isObject item then recur item clean else .ok .undef
             readGo recur (.arr vs) rest
         | _ => readGo recur .undef rest
       else
         readGo recur
           (match cur with
            | .obj fs => objGet fs (String.mk seg)
            | _ => .undef) rest) := rfl

/-- Over word-character tokens the read fold never invokes its re-entry
callback: the result does not depend on it. -/
theorem readGo_irrel
    (r1 r2 : JSValue → List Char → Except JSErr JSValue) :
    ∀ toks : List (List Char),
      (∀ t ∈ toks, t.all isWordChar = true) →
      ∀ cur, readGo r1 cur toks = readGo r2 cur toks := by
  intro toks
  induction toks with
  | nil => intro _ cur; rfl
  | cons seg rest ih =>
    intro hw cur
    have hws : seg.all isWordChar = true := hw seg (by simp)
    have hwr : ∀ t ∈ rest, t.all isWordChar = true :=
      fun t ht => hw t (by simp [ht])
    rw [readGo_cons, readGo_cons]
    by_cases he : seg.isEmpty = true
    · rw [if_pos he, if_pos he]
    · rw [if_neg he, if_neg he]
      rw [if_neg (word_ne_star hws), if_neg (word_ne_star hws)]
      rw [isArrayKey_word hws]
      simp only [Bool.false_or]
      by_cases hi : isIndexKey seg = true
      · rw [if_pos hi, if_pos hi]
        cases cur with
        | arr xs =>
          simp only [stripBrackets_word hws, he, Bool.false_eq_true,
            if_false, hi, if_true]
          exact ih hwr _
        | undef => exact ih hwr _
        | null => exact ih hwr _
        | bool b => exact ih hwr _
        | num m => exact ih hwr _
        | str s => exact ih hwr _
        | obj fs => exact ih hwr _
      · rw [if_neg hi, if_neg hi]
        exact ih hwr _

/-- Pointwise success of the element function gives success of mapM. -/
theorem mapM_ok (f : JSValue → Except JSErr JSValue) :
    ∀ xs : List JSValue, (∀ x ∈ xs, ∃ v, f x = .ok v) →
      ∃ vs, xs.mapM f = .ok vs := by
  intro xs
  induction xs with
  | nil => intro _; exact ⟨[], rfl⟩
  | cons x r ih =>
    intro h
    obtain ⟨v, hv⟩ := h x (by simp)
    obtain ⟨vs, hvs⟩ := ih fun y hy => h y (by simp [hy])
    refine ⟨v :: vs, ?_⟩
    rw [List.mapM_cons, hv, hvs]
    rfl

/-- The read fold returns normally on every token list the read scan can
produce, for every current value, provided the callback returns normally on
every bracket content (strictly shorter than its token). -/
theorem readGo_total (L : Nat)
    (recur : JSValue → List Char → Except JSErr JSValue)
    (hrec : ∀ item cs', cs' ≠ [] → cs'.length + 2 ≤ L →
      ∃ v, recur item cs' = .ok v) :
    ∀ toks : List (List Char),
      (∀ t ∈ toks, t ≠ [] ∧ t.length ≤ L ∧
        (t = ['*'] ∨ t.all isWordChar = true ∨
          ∃ content, t = '[' :: content ++ [']'] ∧ content ≠ [])) →
      ∀ cur, ∃ v, readGo recur cur toks = .ok v := by
  intro toks
  induction toks with
  | nil => intro _ cur; exact ⟨cur, rfl⟩
  | cons seg rest ih =>
    intro hs cur
    obtain ⟨hne, hlen, hshape⟩ := hs seg (by simp)
    have hrest : ∀ t ∈ rest, _ := fun t ht => hs t (by simp [ht])
    rw [readGo_cons]
    rw [if_neg (by simp [isEmpty_false_of_ne hne])]
    rcases hshape with hstar | hword | ⟨content, hbr, hcne⟩
    · subst hstar
      rw [if_pos rfl]
      exact ih hrest cur
    · rw [if_neg (word_ne_star hword)]
      rw [isArrayKey_word hword]
      simp only [Bool.false_or]
      by_cases hi : isIndexKey seg = true
      · rw [if_pos hi]
        cases cur with
        | arr xs =>
          simp only [stripBrackets_word hword,
            isEmpty_false_of_ne hne, Bool.false_eq_true, if_false, hi,
            if_true]
          exact ih hrest _
        | undef => exact ih hrest _
        | null => exact ih hrest _
        | bool b => exact ih hrest _
        | num m => exact ih hrest _
        | str s => exact ih hrest _
        | obj fs => exact ih hrest _
      · rw [if_neg hi]
        exact ih hrest _
    · subst hbr
      by_cases hcond :
          (isArrayKey ('[' :: content ++ [']'])
            || isIndexKey ('[' :: content ++ [']'])) = true
      · rw [if_neg (by simp)]
        rw [if_pos hcond]
        cases cur with
        | arr xs =>
          simp only [stripBrackets_bracket,
            isEmpty_false_of_ne hcne, Bool.false_eq_true, if_false]
          by_cases hic : isIndexKey content = true
          · rw [if_pos hic]
            exact ih hrest _
          · rw [if_neg hic]
            have hmm : ∀ x ∈ xs, ∃ v,
                (if isObject x then recur x content else .ok .undef)
                  = .ok v := by
              intro x _
              by_cases hx : isObject x = true
              · rw [if_pos hx]
                refine hrec x content hcne ?_
                simp only [List.length_cons, List.length_append,
                  List.length_cons, List.length_nil] at hlen
                omega
              · rw [if_neg hx]
                exact ⟨.undef, rfl⟩
            obtain ⟨vs, hvs⟩ := mapM_ok _ xs hmm
            rw [hvs]
            exact ih hrest _
        | undef => exact ih hrest _
        | null => exact ih hrest _
        | bool b => exact ih hrest _
        | num m => exact ih hrest _
        | str s => exact ih hrest _
        | obj fs => exact ih hrest _
      · rw [if_neg (by simp)]
        rw [if_neg (by simpa using hcond)]
        exact ih hrest _

/-- The fueled reader returns normally on every non-empty path once the fuel
dominates the path length: the bracket sub-paths it re-enters are at least
two characters shorter than their token. -/
theorem readValF_total :
    ∀ n (root : JSValue) (cs : List Char), cs ≠ [] → cs.length ≤ n →
      ∃ v, readValF (n + 1) root cs = .ok v := by
  intro n
  induction n with
  | zero =>
    intro root cs hne hlen
    exact absurd (List.length_eq_zero.mp (Nat.le_zero.mp hlen)) hne
  | succ m ih =>
    intro root cs hne hlen
    rw [readValF]
    rw [if_neg (by simp [isEmpty_false_of_ne hne])]
    cases hscan : readScan cs with
    | nil => exact ⟨.undef, rfl⟩
    | cons seg segs =>
      refine readGo_total cs.length (readValF (m + 1)) ?_ (seg :: segs)
        ?_ root
      · intro item cs' hne' hlen'
        exact ih item cs' hne' (by omega)
      · intro t ht
        have hsh := readScanF_shape cs.length true cs t
          (by rw [show readScanF cs.length true cs = readScan cs from rfl,
            hscan]; exact ht)
        exact ⟨hsh.1, hsh.2.1, hsh.2.2⟩

/-- Unfolding of the write fold body on a non-empty segment list (the outer
match of writeGo distinguishes only the segment list, so this holds for
every current value by reduction). -/
theorem writeGo_cons
    (recur : JSValue → List Char → JSValue → Except JSErr JSValue)
    (value cur : JSValue) (seg : List Char) (rest : List (List Char)) :
    writeGo recur value cur (seg :: rest) =
      (let isLast := rest.isEmpty
       let nextArrayLike :=
         match rest with
         | [] => false
         | nk :: _ => isArrayKey nk || isIndexKey nk
       let getNext := getNextValue value isLast nextArrayLike
       if isArrayKey seg || isIndexKey seg then
         let clean := stripBrackets seg
         if clean.isEmpty then
           match cur with
           | .arr xs =>
             let ne := getNext .undef
             if rest.isEmpty then .ok (.arr (xs ++ [ne]))
             else do
               let upd ← writeGo recur value ne rest
               .ok (.arr (xs ++ [upd]))
           | _ => .error .typeError
         else if isIndexKey clean then
           match cur with
           | .arr xs =>
             let n := parseIndex clean
             let existing := jsAt xs n
             let shouldUpdate :=
               !(if nextArrayLike then isArray existing else isObject existing)
             let xs' :=
               if shouldUpdate then
                 if clean.head? = some '-' then splice1 xs n (getNext existing)
                 else arrSetNonNeg xs clean (getNext existing)
               else xs
             if rest.isEmpty then .ok (.arr xs')
             else
               match posOf xs'.length n with
               | some p => do
                 let upd ← writeGo recur value (xs'.getD p .undef) rest
                 .ok (.arr (xs'.set p upd))
               | none => do
                 let _ ← writeGo recur value .undef rest
                 .ok (.arr xs')
           | .str s =>
             let existing := strAt s (parseIndex clean)
             if clean.head? = some '-' then .error .typeError
             else if rest.isEmpty then .ok (.str s)
             else do
               let _ ← writeGo recur value existing rest
               .ok (.str s)
           | _ => .error .typeError
         else
           match cur with
           | .arr xs => do
             let xs' ← xs.mapM fun item => recur item clean (getNext .undef)
             if rest.isEmpty then .ok (.arr xs')
             else writeGo recur value (.arr xs') rest
           | _ => .error .typeError
       else
         match jsGetProp cur (String.mk seg) with
         | .error e => .error e
         | .ok existing =>
           match cur with
           | .arr xs => do
             let xs' ← xs.mapM fun item => recur item seg (getNext .undef)
             if rest.isEmpty then .ok (.arr xs')
             else writeGo recur value (.arr xs') rest
           | _ =>
             let shouldUpdate :=
               !(if nextArrayLike then isArray existing else isObject existing)
             if shouldUpdate then
               let nv := getNext existing
               let cur' := jsSetProp cur (String.mk seg) nv
               let descend := if isObject cur then nv else existing
               if rest.isEmpty then .ok cur'
               else do
                 let upd ← writeGo recur value descend rest
                 .ok (jsSetProp cur' (String.mk seg) upd)
             else if rest.isEmpty then
               .ok (jsSetProp cur (String.mk seg) value)
             else do
               let upd ← writeGo recur value existing rest
               .ok (jsSetProp cur (String.mk seg) upd)) := rfl

/-- Array.prototype.at at a negative in-range index counts from the end. -/
theorem jsAt_neg (xs : List JSValue) (k : Nat) (h : k < xs.length) :
    jsAt xs (-((k + 1 : Nat) : Int)) = xs.getD (xs.length - 1 - k) .undef := by
  unfold jsAt posOf resolveIdx
  rw [if_pos (show -(((k + 1 : Nat) : Int)) < 0 by omega)]
  rw [if_pos (show (0 : Int) ≤ (xs.length : Int) + -((k + 1 : Nat) : Int) ∧
    (xs.length : Int) + -((k + 1 : Nat) : Int) < (xs.length : Int) from
      ⟨by omega, by omega⟩)]
  have h2 : ((xs.length : Int) + -((k + 1 : Nat) : Int)).toNat
      = xs.length - 1 - k := by omega
  rw [h2]

/-- readValue of a single index-shaped token on an array is Array.prototype
.at at the parsed index. -/
theorem readValue_index (xs : List JSValue) (cs : List Char)
    (hne : cs ≠ []) (hw : cs.all isWordChar = true)
    (hidx : isIndexKey cs = true) :
    readValue (.arr xs) (String.mk cs) = .ok (jsAt xs (parseIndex cs)) := by
  show readValF (cs.length + 1) (.arr xs) cs = _
  rw [readValF]
  rw [if_neg (by simp [isEmpty_false_of_ne hne])]
  rw [show readScan cs = [cs] from
    readScanF_word_all hne hw _ (le_refl _)]
  show readGo (readValF cs.length) (.arr xs) [cs] = _
  rw [readGo_cons]
  rw [if_neg (by simp [isEmpty_false_of_ne hne])]
  rw [if_neg (word_ne_star hw)]
  rw [isArrayKey_word hw]
  simp only [Bool.false_or]
  rw [if_pos hidx]
  simp only [stripBrackets_word hw, isEmpty_false_of_ne hne,
    Bool.false_eq_true, if_false, hidx, if_true]
  rfl

/-- writeValue one canonical in-range index into an array: a plain-object
element survives, anything else is overwritten with value ?? undefined. -/
theorem writeGo_setIdx
    (recur : JSValue → List Char → JSValue → Except JSErr JSValue)
    (xs : List JSValue) (i : Nat) (v : JSValue) (hi : i < xs.length) :
    writeGo recur v (.arr xs) [natChars i]
      = .ok (.arr (if isObject (xs.getD i .undef) then xs
                   else xs.set i (valueOrUndef v))) := by
  rw [writeGo_cons]
  rw [if_pos (by simp [natChars_isIndexKey])]
  simp only [stripBrackets_word (natChars_all_word i),
    isEmpty_false_of_ne (natChars_ne_nil i), Bool.false_eq_true, if_false,
    natChars_isIndexKey, if_true, List.isEmpty_nil, parseIndex_natChars,
    jsAt_ofNat, getNextValue]
  rw [if_neg (show ¬(natChars i).head? = some '-' from
    head_ne_dash_of_digits (natChars_all_digits i))]
  rw [arrSetNonNeg_natChars, if_pos hi]
  cases hob : isObject (xs.getD i JSValue.undef) <;> simp

/-- writeValueC version of writeGo_setIdx. -/
theorem writeValueC_setIdx (xs : List JSValue) (i : Nat) (v : JSValue)
    (hv : isUndefined v = false) (hi : i < xs.length) :
    writeValueC (.arr xs) (natChars i) v
      = .ok (.arr (if isObject (xs.getD i .undef) then xs
                   else xs.set i (valueOrUndef v))) := by
  show writeValF ((natChars i).length + szV (.arr xs) + 1 + 1)
    (.arr xs) (natChars i) v = _
  rw [writeValF]
  rw [if_neg (by simp [hv])]
  rw [show writeScan (natChars i) = [natChars i] from
    writeScanF_word_all (natChars_ne_nil i) (natChars_all_word i) _
      (le_refl _)]
  exact writeGo_setIdx _ xs i v hi

/-- Pushing via the empty-bracket segment onto a non-array current value
throws a TypeError (.push is not a function there). -/
theorem writeGo_push_err
    (recur : JSValue → List Char → JSValue → Except JSErr JSValue)
    (v root : JSValue) (ha : isArray root = false) :
    writeGo recur v root [['[', ']']] = .error .typeError := by
  cases root
  case arr => simp [isArray] at ha
  all_goals rfl

/-- Writing through an index segment on a current value that is neither an
array nor a string throws a TypeError (.at is not a function there). -/
theorem writeGo_idx_err
    (recur : JSValue → List Char → JSValue → Except JSErr JSValue)
    (v root : JSValue) (n : Nat) (ha : isArray root = false)
    (hs : isString root = false) :
    writeGo recur v root [natChars n] = .error .typeError := by
  rw [writeGo_cons]
  rw [if_pos (by simp [natChars_isIndexKey])]
  simp only [stripBrackets_word (natChars_all_word n),
    isEmpty_false_of_ne (natChars_ne_nil n), Bool.false_eq_true, if_false,
    natChars_isIndexKey, if_true]
  cases root with
  | arr xs => simp [isArray] at ha
  | str s => simp [isString] at hs
  | undef => rfl
  | null => rfl
  | bool b => rfl
  | num m => rfl
  | obj fs => rfl

/-- writeValueC version of writeGo_push_err. -/
theorem writeValueC_push_err (root v : JSValue)
    (hv : isUndefined v = false) (ha : isArray root = false) :
    writeValueC root ['[', ']'] v = .error .typeError := by
  show writeValF ((['[', ']'] : List Char).length + szV root + 1 + 1)
    root ['[', ']'] v = _
  rw [writeValF]
  rw [if_neg (by simp [hv])]
  rw [show writeScan ['[', ']'] = [['[', ']']] from rfl]
  exact writeGo_push_err _ v root ha

/-- writeValueC version of writeGo_idx_err. -/
theorem writeValueC_idx_err (root v : JSValue) (n : Nat)
    (hv : isUndefined v = false) (ha : isArray root = false)
    (hs : isString root = false) :
    writeValueC root (natChars n) v = .error .typeError := by
  show writeValF ((natChars n).length + szV root + 1 + 1)
    root (natChars n) v = _
  rw [writeValF]
  rw [if_neg (by simp [hv])]
  rw [show writeScan (natChars n) = [natChars n] from
    writeScanF_word_all (natChars_ne_nil n) (natChars_all_word n) _
      (le_refl _)]
  exact writeGo_idx_err _ v root n ha hs

/-- Propagating an Except-bind into a state constructor fixes the source
component of any successfully returned state. -/
theorem except_bind_mk (x : Except JSErr JSValue) (a c : JSValue)
    (st : MapState)
    (h : (do
      let r ← x
      Except.ok (MapState.mk a c r)) = .ok st) : st.source = a := by
  cases x with
  | error e =>
    have h2 : (Except.error e : Except JSErr MapState) = .ok st := h
    cases h2
  | ok r =>
    have h2 : (Except.ok (MapState.mk a c r) : Except JSErr MapState)
        = .ok st := h
    cases h2
    rfl

/-- Number() of a negative decimal index string. -/
theorem parseIndex_negChars (m : Nat) :
    parseIndex ('-' :: natChars m) = -((m : Nat) : Int) := by
  show -(((natChars m).foldl (fun a c => 10 * a + (c.toNat - 48)) 0 : Nat)
    : Int) = _
  rw [natChars_foldl]

/-- C1: a mapper directive passed as its own top-level field specification
does not redirect the subsequent top-level field specifications; both spec
examples actually evaluate to the unprefixed (resp. empty) result, not to
the prefixed objects the claim asserts. -/
theorem claim_C1 :
    mapObject (.obj [("street", .str "X"), ("city", .str "Y")])
        [.str ":address.", .str "street", .str "city"]
      = .ok (.obj [("street", .str "X"), ("city", .str "Y")]) ∧
    mapObject (.obj [("metadata", .obj [("author", .str "H")])])
        [.str "metadata:docInfo.", .str "author"]
      = .ok (.obj []) ∧
    (JSValue.obj [("street", .str "X"), ("city", .str "Y")]
      ≠ .obj [("address", .obj [("street", .str "X"), ("city", .str "Y")])]) ∧
    (JSValue.obj [] ≠ .obj [("docInfo", .obj [("author", .str "H")])]) :=
  ⟨rfl, rfl, by simp, by simp⟩

/-- C2 (amended): for a path of plain keys and non-negative canonical
indices whose first segment is a key, writing any defined value v into a
fresh empty object materialises the container skeleton and reading the same
path back returns value ?? undefined — so null comes back as undefined, and
every other JSON value round-trips unchanged. -/
theorem claim_C2 (v : JSValue) (hv : isUndefined v = false)
    (s0 : PathSeg) (segs : List PathSeg) (h0 : isKeySeg s0)
    (hvall : ∀ s ∈ s0 :: segs, validSeg s) :
    writeValueC (.obj []) (renderPath (s0 :: segs)) v
      = .ok (buildJS (valueOrUndef v) (s0 :: segs)) ∧
    readValueC (buildJS (valueOrUndef v) (s0 :: segs))
        (renderPath (s0 :: segs)) = .ok (valueOrUndef v) :=
  ⟨writeValueC_fresh v hv s0 segs h0 hvall,
   readValueC_build (valueOrUndef v) (s0 :: segs) hvall (by simp)⟩

/-- C2 witness: the round trip at the concrete path a.2.b and value 7. -/
theorem claim_C2_witness :
    writeValueC (.obj [])
        (renderPath [PathSeg.key ['a'], .idx 2, .key ['b']]) (.num 7)
      = .ok (buildJS (.num 7) [PathSeg.key ['a'], .idx 2, .key ['b']]) ∧
    readValueC (buildJS (.num 7) [PathSeg.key ['a'], .idx 2, .key ['b']])
        (renderPath [PathSeg.key ['a'], .idx 2, .key ['b']])
      = .ok (.num 7) :=
  claim_C2 (.num 7) rfl (.key ['a']) [.idx 2, .key ['b']] trivial (by
    intro s hs
    simp only [List.mem_cons] at hs
    rcases hs with rfl | rfl | rfl | hs
    · exact ⟨by decide, by decide, by decide⟩
    · trivial
    · exact ⟨by decide, by decide, by decide⟩
    · simp at hs)

/-- C2 counterexample: null does not round-trip; it is written as undefined
via value ?? undefined. -/
theorem claim_C2_counter :
    writeValue (.obj []) "a" .null = .ok (.obj [("a", .undef)]) ∧
    readValue (.obj [("a", .undef)]) "a" = .ok .undef ∧
    (JSValue.undef ≠ .null) :=
  ⟨rfl, rfl, by simp⟩

/-- C3 (amended): writing through a canonical in-range final index
overwrites the element with value ?? undefined exactly when the existing
element is not a plain object; an existing plain object is silently kept
and the supplied value is discarded. -/
theorem claim_C3 (xs : List JSValue) (i : Nat) (v : JSValue)
    (hv : isUndefined v = false) (hi : i < xs.length) :
    writeValueC (.arr xs) (natChars i) v
      = .ok (.arr (if isObject (xs.getD i .undef) then xs
                   else xs.set i (valueOrUndef v))) :=
  writeValueC_setIdx xs i v hv hi

/-- C3 witness: a scalar element at index 0 is overwritten. -/
theorem claim_C3_witness :
    writeValueC (.arr [.num 7]) (natChars 0) (.num 5)
      = .ok (.arr [.num 5]) :=
  claim_C3 [.num 7] 0 (.num 5) rfl (by decide)

/-- C3 counterexample: a plain-object element at the final index is not
overwritten. -/
theorem claim_C3_counter :
    writeValue (.arr [.obj [("x", .num 1)]]) "0" (.num 5)
      = .ok (.arr [.obj [("x", .num 1)]]) ∧
    (JSValue.arr [.obj [("x", .num 1)]] ≠ .arr [.num 5]) :=
  ⟨rfl, by simp⟩

/-- C4: resolving the simple map "user.name:" (explicit but empty target)
produces the identifier "user.name" — the whole source path — and not the
last dot-segment "name" the claim asserts. -/
theorem claim_C4 :
    resolveMap (.obj [("user", .obj [("name", .str "H")])]) "user.name:"
      = .ok ⟨"user.name", .str "H"⟩ ∧
    ("user.name" : String) ≠ "name" :=
  ⟨rfl, by decide⟩

/-- C5 (amended): neither tokenizer can emit an empty segment, so the
empty-segment guards never fire: a doubled dot is simply skipped and
"a..b" is read and written exactly like "a.b"; no InvalidPathError is
raised. -/
theorem claim_C5 :
    (∀ n (p : Bool) cs seg, seg ∈ readScanF n p cs → seg ≠ []) ∧
    (∀ n (p : Bool) cs seg, seg ∈ writeScanF n p cs → seg ≠ []) ∧
    (∀ root, readValue root "a..b" = readValue root "a.b") ∧
    writeValue (.obj []) "a..b" (.num 1)
      = writeValue (.obj []) "a.b" (.num 1) := by
  refine ⟨?_, ?_, ?_, ?_⟩
  · intro n p cs seg h
    exact (readScanF_shape n p cs seg h).1
  · intro n p cs seg h
    exact (writeScanF_nonempty n p cs seg h).1
  · intro root
    show readValF (4 + 1) root ('a' :: '.' :: '.' :: 'b' :: [])
      = readValF (3 + 1) root ('a' :: '.' :: 'b' :: [])
    rw [readValF, readValF]
    rw [if_neg (by decide), if_neg (by decide)]
    rw [show readScan ('a' :: '.' :: '.' :: 'b' :: [])
      = [['a'], ['b']] from rfl]
    rw [show readScan ('a' :: '.' :: 'b' :: []) = [['a'], ['b']] from rfl]
    exact readGo_irrel (readValF 4) (readValF 3) [['a'], ['b']]
      (by decide) root
  · have h1 : writeValue (.obj []) "a..b" (.num 1)
        = .ok (.obj [("a", .obj [("b", .num 1)])]) := rfl
    have h2 : writeValue (.obj []) "a.b" (.num 1)
        = .ok (.obj [("a", .obj [("b", .num 1)])]) := rfl
    exact h1.trans h2.symm

/-- C5 witness: a concrete read token is non-empty and a concrete root
reads "a..b" as "a.b". -/
theorem claim_C5_witness :
    (['a'] : List Char) ≠ [] ∧
    readValue (.obj []) "a..b" = readValue (.obj []) "a.b" :=
  ⟨claim_C5.1 4 true ('a' :: '.' :: 'b' :: []) ['a'] (by decide),
   claim_C5.2.2.1 (.obj [])⟩

/-- C5 counterexample: "a..b" raises no error on either side; it reads and
writes like "a.b". -/
theorem claim_C5_counter :
    readValue (.obj [("a", .obj [("b", .num 1)])]) "a..b" = .ok (.num 1) ∧
    writeValue (.obj []) "a..b" (.num 1)
      = .ok (.obj [("a", .obj [("b", .num 1)])]) :=
  ⟨rfl, rfl⟩

/-- C6: readValue errors exactly on the empty path (the non-string case is
discharged by typing); on every non-empty path and every root it returns
normally. -/
theorem claim_C6 :
    (∀ root, readValue root "" = .error .invalidPath) ∧
    (∀ (root : JSValue) (path : String), path ≠ "" →
      ∃ v, readValue root path = .ok v) := by
  refine ⟨fun root => rfl, ?_⟩
  intro root path hne
  have hne' : path.toList ≠ [] := fun h => hne (by
    cases path with
    | mk d =>
      simp only [String.toList] at h
      subst h
      rfl)
  exact readValF_total path.toList.length root path.toList hne' (le_refl _)

/-- C6 witness: a mixed path with a bracket segment reads normally on an
empty object. -/
theorem claim_C6_witness :
    ∃ v, readValue (.obj []) "a.[x].b" = .ok v :=
  claim_C6.2 (.obj []) "a.[x].b" (by decide)

/-- C7 (amended): mapObject never leaks its caller value into any write:
the run state returned on success carries the source unchanged (all writes
target the clone and the result container). -/
theorem claim_C7 :
    ∀ (src : JSValue) (fields : List MapSpec) (st : MapState),
      mapObjectRun src fields = .ok st → st.source = src := by
  intro src fields st h
  unfold mapObjectRun at h
  by_cases hu : isUndefined src = true
  · rw [if_pos hu] at h
    cases h
  · rw [if_neg hu] at h
    have h3 : (do
      let r ← List.foldlM (fun res spec => processMap (cloneV src) res spec)
        (if isArray src then JSValue.arr [] else JSValue.obj []) fields
      Except.ok (MapState.mk src (cloneV src) r)) = .ok st := h
    exact except_bind_mk _ src (cloneV src) st h3

/-- C7 witness: the trivial run on a number source returns it as the state
source. -/
theorem claim_C7_witness :
    MapState.source (MapState.mk (.num 1) (.num 1) (.obj [])) = .num 1 :=
  claim_C7 (.num 1) [] (MapState.mk (.num 1) (.num 1) (.obj [])) rfl

/-- C7 counterexample: the claim's example result is wrong; mapObject on
{a:{b:1}} with "a.b" writes back to the path a.b, yielding {a:{b:1}}, not
{b:1}. -/
theorem claim_C7_counter :
    mapObject (.obj [("a", .obj [("b", .num 1)])]) [.str "a.b"]
      = .ok (.obj [("a", .obj [("b", .num 1)])]) ∧
    (JSValue.obj [("a", .obj [("b", .num 1)])] ≠ .obj [("b", .num 1)]) :=
  ⟨rfl, by simp⟩

/-- C8: negative indices read end-relatively: for an in-range k,
String(-1-k) and String(n-1-k) read the same element of an array of
length n. -/
theorem claim_C8 (xs : List JSValue) (k : Nat) (h : k < xs.length) :
    readValue (.arr xs) (String.mk ('-' :: natChars (k + 1)))
      = readValue (.arr xs) (String.mk (natChars (xs.length - 1 - k))) := by
  rw [readValue_index xs ('-' :: natChars (k + 1)) (by simp)
    (by simp [List.all_cons, natChars_all_word, isWordChar])
    (by simp [isIndexKey, isEmpty_false_of_ne (natChars_ne_nil (k + 1)),
      natChars_all_digits])]
  rw [readValue_index xs (natChars (xs.length - 1 - k))
    (natChars_ne_nil _) (natChars_all_word _) (natChars_isIndexKey _)]
  rw [parseIndex_negChars, parseIndex_natChars]
  rw [jsAt_neg xs k h, jsAt_ofNat]

/-- C8 witness: "-1" and "1" read the same element of a two-element
array. -/
theorem claim_C8_witness :
    readValue (.arr [.num 10, .num 20]) (String.mk ('-' :: natChars 1))
      = readValue (.arr [.num 10, .num 20]) (String.mk (natChars 1)) :=
  claim_C8 [.num 10, .num 20] 0 (by decide)

/-- C9 (amended): with a defined value, an empty-bracket first segment
throws TypeError on every non-array root, and an index first segment throws
TypeError on every root that is neither an array nor a string; a string
root survives the index segment, so the claim's blanket "non-array root"
is too strong. -/
theorem claim_C9 (root v : JSValue) (n : Nat)
    (hv : isUndefined v = false) (ha : isArray root = false) :
    writeValueC root ['[', ']'] v = .error .typeError ∧
    (isString root = false →
      writeValueC root (natChars n) v = .error .typeError) :=
  ⟨writeValueC_push_err root v hv ha,
   fun hs => writeValueC_idx_err root v n hv ha hs⟩

/-- C9 witness: both first segments throw on a plain-object root. -/
theorem claim_C9_witness :
    writeValueC (.obj []) ['[', ']'] (.num 1) = .error .typeError ∧
    writeValueC (.obj []) (natChars 0) (.num 1) = .error .typeError :=
  ⟨(claim_C9 (.obj []) (.num 1) 0 rfl rfl).1,
   (claim_C9 (.obj []) (.num 1) 0 rfl rfl).2 rfl⟩

/-- C9 counterexample: a string root does not throw on an index first
segment: the assignment is a silent no-op. -/
theorem claim_C9_counter :
    writeValue (.str "abc") "0" (.num 1) = .ok (.str "abc") := rfl

/-- C10: writing null along a fresh key-first path stores undefined (the
container-creation branch goes through value ?? undefined) and reads back
as undefined, while writing null over an existing plain object at the
final key stores null as-is (the skip branch assigns the raw value). -/
theorem claim_C10 (s0 : PathSeg) (segs : List PathSeg) (h0 : isKeySeg s0)
    (hvall : ∀ s ∈ s0 :: segs, validSeg s) :
    (writeValueC (.obj []) (renderPath (s0 :: segs)) .null
      = .ok (buildJS .undef (s0 :: segs)) ∧
     readValueC (buildJS .undef (s0 :: segs)) (renderPath (s0 :: segs))
      = .ok .undef) ∧
    writeValue (.obj [("a", .obj [])]) "a" .null
      = .ok (.obj [("a", .null)]) ∧
    readValue (.obj [("a", .null)]) "a" = .ok .null := by
  refine ⟨⟨?_, ?_⟩, rfl, rfl⟩
  · exact writeValueC_fresh .null rfl s0 segs h0 hvall
  · exact readValueC_build .undef (s0 :: segs) hvall (by simp)

/-- C10 witness: the null write at the concrete fresh path a. -/
theorem claim_C10_witness :
    writeValueC (.obj []) (renderPath [PathSeg.key ['a']]) .null
      = .ok (buildJS .undef [PathSeg.key ['a']]) :=
  (claim_C10 (.key ['a']) [] trivial (by
    intro s hs
    simp only [List.mem_singleton] at hs
    subst hs
    exact ⟨by decide, by decide, by decide⟩)).1.1


end MapObject
